import Mathlib

/-
Verification of the Maka observation-record engine: a shallow embedding of the
field formats (maka/format/SimpleDocumentFormat.py), the document edit model
(maka/data/Document.py), the observation metaclass (maka/data/Observation.py)
and the parts of maka/data/EditHistory.py that are modelled from the spec,
together with theorems settling the specification claims.

Modeling conventions:
  - Python strings are Lean `String`/`List Char`; parsing works on `.data`.
  - Python ints are `ℤ`/`ℕ`; Python floats are modelled as exact rationals `ℚ`
    (angle arithmetic) or integer-valued inputs (the Float field format).
  - A raised Python exception is an `Except.error` carrying the message.
-/

namespace Maka

/-- Decimal digit character for a digit value below ten. -/
def digitChar (n : ℕ) : Char := Char.ofNat (48 + n)

/-- Numeric value of a decimal digit character. -/
def digitVal (c : Char) : ℕ := c.toNat - 48

/-- Least-significant-first decimal digit characters of a natural number,
by repeated division (the fuel argument only forces termination; any fuel of
at least the number of digits gives the same result). -/
def natDecimalAux (fuel n : ℕ) : List Char :=
  match fuel with
  | 0 => []
  | fuel + 1 => if n = 0 then [] else digitChar (n % 10) :: natDecimalAux fuel (n / 10)

/-- Decimal digit list of a natural number, most significant digit first.
This embeds Python integer formatting with the default `d` conversion,
which prints a nonnegative integer as its plain decimal digits. -/
def natDecimal (n : ℕ) : List Char :=
  if n = 0 then ['0'] else (natDecimalAux n n).reverse

/-- Embedding of Python `d` formatting of a (possibly negative) integer. -/
def intDecimal (i : ℤ) : List Char :=
  if i < 0 then '-' :: natDecimal i.natAbs else natDecimal i.natAbs

/-- Embedding of Python `02d` formatting: zero-pad the decimal digits to width two. -/
def pad2 (n : ℕ) : List Char :=
  List.replicate (2 - (natDecimal n).length) '0' ++ natDecimal n

/-- Numeric value of a list of decimal digit characters (most significant first). -/
def natValL (l : List Char) : ℕ :=
  l.foldl (fun a c => 10 * a + digitVal c) 0

/-- Parse a nonempty all-digit character list as a natural number; `none` otherwise. -/
def parseNatL (l : List Char) : Option ℕ :=
  if l = [] then none
  else if l.all Char.isDigit then some (natValL l) else none

/-- Embedding of Python `str.replace` for a nonempty pattern: scan left to right,
replacing non-overlapping occurrences of `pat` by `rep` without rescanning `rep`.
(The empty-pattern case, which Python treats specially, is never used here.) -/
def pyReplace (pat rep : List Char) : List Char → List Char
  | [] => []
  | c :: cs =>
      if pat ≠ [] ∧ pat.isPrefixOf (c :: cs) then
        rep ++ pyReplace pat rep (cs.drop (pat.length - 1))
      else
        c :: pyReplace pat rep cs
termination_by l => l.length
decreasing_by
  · simp only [List.length_drop, List.length_cons]
    omega
  · simp

/-- Split a character list at every occurrence of the separator character.
Used to embed the anchored regular expressions of the field formats, whose
alternatives are all separator-free. -/
def splitCh (sep : Char) : List Char → List (List Char)
  | [] => [[]]
  | c :: cs =>
      match splitCh sep cs with
      | [] => [[c]]
      | g :: gs => if c = sep then [] :: g :: gs else (c :: g) :: gs

instance {ε α : Type} [DecidableEq ε] [DecidableEq α] : DecidableEq (Except ε α) :=
  fun x y =>
    match x, y with
    | .ok a, .ok b => decidable_of_iff (a = b) (by simp)
    | .error a, .error b => decidable_of_iff (a = b) (by simp)
    | .ok _, .error _ => .isFalse (by simp)
    | .error _, .ok _ => .isFalse (by simp)

/-- Modelled from the spec: `maka.util.TokenUtils.NONE_TOKEN`, the display-mode
null token (`TokenUtils.py` is not in the source tree; the spec requires a
distinguished display-mode token for a null field value, distinct from the
editing-mode token, which is the empty string). -/
def NONE_TOKEN : String := "None"

/-- The formatted-for-editing value of an observation field value of `None`
(`_EDITING_NONE` in SimpleDocumentFormat.py). -/
def EDITING_NONE : String := ""

/-- Character class of the regular expression `_QUOTABLE_CHARS_RE`, i.e.
whitespace, backslash, or double quote.  (ASCII whitespace; the additional
Unicode spaces Python's `\s` accepts are immaterial to the theorems below.) -/
def quotableChar (c : Char) : Bool :=
  c = '"' || c = '\\' || c = ' ' || c = '\t' || c = '\n' || c = '\r' ||
    c = '\x0b' || c = '\x0c'

/-- Embedding of `_escapeString`: double every backslash, then precede every
double quote by a backslash (two sequential `str.replace` calls). -/
def escapeString (l : List Char) : List Char :=
  pyReplace ['"'] ['\\', '"'] (pyReplace ['\\'] ['\\', '\\'] l)

/-- Embedding of `_unescapeString`: collapse doubled backslashes, then drop the
backslash before every double quote (two sequential `str.replace` calls). -/
def unescapeString (l : List Char) : List Char :=
  pyReplace ['\\', '"'] ['"'] (pyReplace ['\\', '\\'] ['\\'] l)

/-- Embedding of `StringFormat.format`. -/
def stringFormat (v : Option String) (editing : Bool) : String :=
  if editing then
    match v with
    | none => EDITING_NONE
    | some s => s
  else
    match v with
    | none => NONE_TOKEN
    | some s =>
        if s.data = [] then String.mk ['"', '"']
        else if s.data.any quotableChar then
          String.mk ('"' :: escapeString s.data ++ ['"'])
        else s

/-- Embedding of `StringFormat.parse`.  The `s[0]` subscript of the source
raises `IndexError` on an empty display-mode string, hence the `Except`. -/
def stringParse (s : String) (editing : Bool) : Except String (Option String) :=
  if editing then
    .ok (if s = EDITING_NONE then none else some s)
  else if s = NONE_TOKEN then .ok none
  else
    match s.data with
    | [] => .error ("IndexError: string index out of range")
    | c :: cs =>
        if c = '"' then .ok (some (String.mk (unescapeString cs.dropLast)))
        else .ok (some s)

/-- Membership test for the anchored regular expression `_DECIMAL_RE`,
`-?(\d+\.?|\d*\.\d+)` : an optional minus sign, then a nonempty string of
digits and at most one dot that is not the single dot alone. -/
def isDecimalString (s : String) : Bool :=
  let body := if s.data.head? = some '-' then s.data.tail else s.data
  body.all (fun c => c.isDigit || c = '.') && body.count '.' ≤ 1 &&
    body ≠ [] && body ≠ ['.']

/-- Embedding of `DecimalFormat.format`. -/
def decimalFormat (v : Option String) (editing : Bool) : String :=
  match v with
  | none => if editing then EDITING_NONE else NONE_TOKEN
  | some s => s

/-- Embedding of `DecimalFormat.parse`. -/
def decimalParse (s : String) (editing : Bool) : Except String (Option String) :=
  if (editing && s = EDITING_NONE) || (!editing && s = NONE_TOKEN) then .ok none
  else if isDecimalString s then .ok (some s)
  else .error ("Bad decimal number.")

/-- Embedding of `IntegerFormat.format` with the default replacement field
`d`, which prints the plain decimal representation. -/
def integerFormat (v : Option ℤ) (editing : Bool) : String :=
  match v with
  | none => if editing then EDITING_NONE else NONE_TOKEN
  | some i => String.mk (intDecimal i)

/-- Model of the Python builtin `int` applied to a string: an optional sign
followed by decimal digits.  (Python also strips surrounding whitespace and
allows digit-group underscores; those inputs never arise below.) -/
def pyInt (s : String) : Option ℤ :=
  match s.data with
  | [] => none
  | c :: rest =>
      if c = '-' then (parseNatL rest).map (fun n => -(n : ℤ))
      else if c = '+' then (parseNatL rest).map (fun n => (n : ℤ))
      else (parseNatL (c :: rest)).map (fun n => (n : ℤ))

/-- Embedding of `IntegerFormat.parse`. -/
def integerParse (s : String) (editing : Bool) : Except String (Option ℤ) :=
  if (editing && s = EDITING_NONE) || (!editing && s = NONE_TOKEN) then .ok none
  else
    match pyInt s with
    | some i => .ok (some i)
    | none => .error ("Could not parse as an integer.")

/-- Model of the Python builtin `float` applied to a string: an optional sign
followed by a decimal literal `d+ | d+.d* | d*.d+`, read as an exact rational.
(Exponent forms and the rounding of the result to a binary double are outside
the exact-arithmetic embedding; no theorem below depends on them.) -/
def pyFloat (s : String) : Option ℚ :=
  let neg : Bool := s.data.head? = some '-'
  let body : List Char :=
    if s.data.head? = some '-' || s.data.head? = some '+' then s.data.tail else s.data
  let val : Option ℚ :=
    match splitCh '.' body with
    | [a] =>
        if a ≠ [] && a.all Char.isDigit then some ((natValL a : ℚ)) else none
    | [a, b] =>
        if (a ++ b) ≠ [] && (a ++ b).all Char.isDigit then
          some ((natValL a : ℚ) + (natValL b : ℚ) / (10 : ℚ) ^ b.length)
        else none
    | _ => none
  val.map (fun q => if neg then -q else q)

/-- Embedding of `FloatFormat.format` with the default replacement field
`.16g`.  Python floats are modelled exactly; the embedding covers integer
values, which the `.16g` template prints as their plain decimal digits
whenever their magnitude is below `10^16` (the scope of the theorems below). -/
def floatFormat (v : Option ℤ) (editing : Bool) : String :=
  match v with
  | none => if editing then EDITING_NONE else NONE_TOKEN
  | some i => String.mk (intDecimal i)

/-- Embedding of `FloatFormat.parse`. -/
def floatParse (s : String) (editing : Bool) : Except String (Option ℚ) :=
  if (editing && s = EDITING_NONE) || (!editing && s = NONE_TOKEN) then .ok none
  else
    match pyFloat s with
    | some q => .ok (some q)
    | none => .error ("Could not parse as a floating point number.")

/-- Embedding of the Python builtin `round` on an exact rational: round to the
nearest integer, ties to the even integer. -/
def pythonRound (q : ℚ) : ℤ :=
  let n := ⌊q⌋
  let r := q - (n : ℚ)
  if r < 1 / 2 then n
  else if 1 / 2 < r then n + 1
  else if n % 2 = 0 then n else n + 1

/-- Embedding of `AngleFormat.format`: split the magnitude into rounded total
seconds, then degrees, minutes, seconds, and print `sign D:MM:SS`. -/
def angleFormat (v : Option ℚ) (editing : Bool) : String :=
  match v with
  | none => if editing then EDITING_NONE else NONE_TOKEN
  | some v =>
      let sign : List Char := if v < 0 then ['-'] else []
      let w : ℚ := if v < 0 then -v else v
      let totalSeconds : ℕ := (pythonRound (3600 * w)).toNat
      let seconds := totalSeconds % 60
      let totalMinutes := totalSeconds / 60
      let minutes := totalMinutes % 60
      let degrees := totalMinutes / 60
      String.mk
        (sign ++ natDecimal degrees ++ ':' :: pad2 minutes ++ ':' :: pad2 seconds)

/-- Embedding of `AngleFormat.parse` and its anchored regular expression
`(-?)(\d{1,3}):(\d\d):(\d\d)`: an optional sign, one to three degree digits and
exactly two digits each for minutes and seconds, joined by colons. -/
def angleParse (s : String) (editing : Bool) : Except String (Option ℚ) :=
  if (editing && s = EDITING_NONE) || (!editing && s = NONE_TOKEN) then .ok none
  else
    let neg : Bool := s.data.head? = some '-'
    let body : List Char := if s.data.head? = some '-' then s.data.tail else s.data
    match splitCh ':' body with
    | [d, m, sec] =>
        if 1 ≤ d.length && d.length ≤ 3 && d.all Char.isDigit &&
            m.length = 2 && m.all Char.isDigit &&
            sec.length = 2 && sec.all Char.isDigit then
          let v : ℚ :=
            (natValL d : ℚ) + (natValL m : ℚ) / 60 + (natValL sec : ℚ) / 3600
          .ok (some (if neg then -v else v))
        else .error ("Bad angle.")
    | _ => .error ("Bad angle.")

/-- Python `datetime.date` value. -/
structure PyDate where
  year : ℕ
  month : ℕ
  day : ℕ
deriving DecidableEq

/-- Gregorian leap-year rule, as implemented by `calendar.isleap`. -/
def isLeapYear (y : ℕ) : Bool :=
  y % 4 = 0 && (y % 100 ≠ 0 || y % 400 = 0)

/-- Number of days of a month, as returned by `calendar.monthrange`. -/
def daysInMonth (y m : ℕ) : ℕ :=
  if m = 2 then (if isLeapYear y then 29 else 28)
  else if m = 4 || m = 6 || m = 9 || m = 11 then 30
  else 31

/-- Validity invariant that `datetime.date` enforces on construction. -/
def isValidDate (d : PyDate) : Bool :=
  1 ≤ d.year && d.year ≤ 9999 && 1 ≤ d.month && d.month ≤ 12 &&
    1 ≤ d.day && d.day ≤ daysInMonth d.year d.month

/-- Embedding of `DateFormat.format`: `M/D/YY` with a two-digit year. -/
def dateFormat (v : Option PyDate) (editing : Bool) : String :=
  match v with
  | none => if editing then EDITING_NONE else NONE_TOKEN
  | some d =>
      String.mk
        (natDecimal d.month ++ '/' :: natDecimal d.day ++ '/' :: pad2 (d.year % 100))

/-- Embedding of `DateFormat.parse` and its anchored regular expression
`(\d{1,2})/(\d{1,2})/(\d{2})`, with the 1970-2069 two-digit-year pivot and the
month and days-in-month validation of the source. -/
def dateParse (s : String) (editing : Bool) : Except String (Option PyDate) :=
  if (editing && s = EDITING_NONE) || (!editing && s = NONE_TOKEN) then .ok none
  else
    match splitCh '/' s.data with
    | [mo, dy, yr] =>
        if 1 ≤ mo.length && mo.length ≤ 2 && mo.all Char.isDigit &&
            1 ≤ dy.length && dy.length ≤ 2 && dy.all Char.isDigit &&
            yr.length = 2 && yr.all Char.isDigit then
          let month := natValL mo
          let day := natValL dy
          let year0 := natValL yr
          let year := year0 + (if year0 < 70 then 2000 else 1900)
          if month = 0 || month > 12 then
            .error ("Month must be in range [1, 12].")
          else
            let numDays := daysInMonth year month
            if day = 0 || day > numDays then
              .error ("Day must be in range [1, days in month].")
            else .ok (some ⟨year, month, day⟩)
        else .error ("Bad date.")
    | _ => .error ("Bad date.")

/-- Python `datetime.time` value. -/
structure PyTime where
  hour : ℕ
  minute : ℕ
  second : ℕ
deriving DecidableEq

/-- Validity invariant that `datetime.time` enforces on construction. -/
def isValidTime (t : PyTime) : Bool :=
  t.hour ≤ 23 && t.minute ≤ 59 && t.second ≤ 59

/-- Embedding of `TimeFormat.format`: `H:MM:SS`. -/
def timeFormat (v : Option PyTime) (editing : Bool) : String :=
  match v with
  | none => if editing then EDITING_NONE else NONE_TOKEN
  | some t =>
      String.mk
        (natDecimal t.hour ++ ':' :: pad2 t.minute ++ ':' :: pad2 t.second)

/-- Embedding of `TimeFormat.parse` and its anchored regular expression
`(\d{1,2}):(\d\d):(\d\d)`, with the hour, minute, and second range checks of
the source. -/
def timeParse (s : String) (editing : Bool) : Except String (Option PyTime) :=
  if (editing && s = EDITING_NONE) || (!editing && s = NONE_TOKEN) then .ok none
  else
    match splitCh ':' s.data with
    | [h, m, sec] =>
        if 1 ≤ h.length && h.length ≤ 2 && h.all Char.isDigit &&
            m.length = 2 && m.all Char.isDigit &&
            sec.length = 2 && sec.all Char.isDigit then
          let hour := natValL h
          let minute := natValL m
          let second := natValL sec
          if hour > 23 then .error ("Hour must be in range [0, 23].")
          else if minute > 59 then .error ("Minute must be in range [0, 59].")
          else if second > 59 then .error ("Second must be in range [0, 59].")
          else .ok (some ⟨hour, minute, second⟩)
        else .error ("Bad time.")
    | _ => .error ("Bad time.")

/-- Python slice `l[a:b]` for `0 ≤ a ≤ b ≤ l.length` (the only case arising
after `_checkEditIndices` has validated the indices). -/
def pySlice (l : List α) (a b : ℕ) : List α :=
  (l.take b).drop a

/-- An atomic replacement of a contiguous run of records: the data of a
`DocumentEdit` (name, index range, removed and inserted records).  The deep
copies the source takes (`_copy`) are the identity in this pure model. -/
structure DocEdit (α : Type) where
  name : String
  startIndex : ℕ
  endIndex : ℕ
  oldObs : List α
  newObs : List α
deriving DecidableEq

/-- Embedding of `_checkEditIndex`. -/
def checkEditIndex (index : ℤ) (maxIndex : ℕ) (which : String) : Except String Unit :=
  if index < 0 then
    .error ("Edit " ++ which ++ " index must be at least zero.")
  else if index > (maxIndex : ℤ) then
    .error ("Edit " ++ which ++ " index must not exceed document length.")
  else .ok ()

/-- Embedding of `_checkEditIndices`. -/
def checkEditIndices (startIndex endIndex : ℤ) (maxIndex : ℕ) : Except String Unit := do
  let _ ← checkEditIndex startIndex maxIndex ("start")
  let _ ← checkEditIndex endIndex maxIndex ("end")
  if endIndex < startIndex then
    .error ("Edit end index must be at least start index.")
  else .ok ()

/-- Embedding of `DocumentEdit.__init__`: validate the indices against the
current record sequence, then capture the replaced slice and the inserted
records.  The index checks run before anything is captured or mutated. -/
def mkDocumentEdit (name : String) (records : List α) (startIndex endIndex : ℤ)
    (observations : List α) : Except String (DocEdit α) := do
  let _ ← checkEditIndices startIndex endIndex records.length
  .ok { name := name, startIndex := startIndex.toNat, endIndex := endIndex.toNat,
        oldObs := pySlice records startIndex.toNat endIndex.toNat,
        newObs := observations }

/-- Embedding of `DocumentEdit.do`: splice `newObs` over `records[start:end]`. -/
def applyEdit (e : DocEdit α) (records : List α) : List α :=
  records.take e.startIndex ++ e.newObs ++ records.drop e.endIndex

/-- Modelled from the spec: `maka.data.EditHistory.EditHistory`
(`EditHistory.py` is not in the source tree; its tests and callers are).  Two
stacks of edits plus the marker recording which position in the undo/redo
timeline corresponds to the last saved state.  The current position is the
undo-stack length. -/
structure EditHistory (α : Type) where
  undoStack : List (DocEdit α)
  redoStack : List (DocEdit α)
  savedPos : ℕ
deriving DecidableEq

/-- A fresh edit history: no edits, saved position at the start. -/
def EditHistory.empty (α : Type) : EditHistory α :=
  { undoStack := [], redoStack := [], savedPos := 0 }

/-- Modelled from the spec: the document is saved exactly when the current
position in the undo/redo timeline equals the recorded saved position. -/
def EditHistory.documentSaved (h : EditHistory α) : Bool :=
  h.undoStack.length == h.savedPos

/-- Modelled from the spec: marking the document saved records the current
position. -/
def EditHistory.markDocumentSaved (h : EditHistory α) : EditHistory α :=
  { h with savedPos := h.undoStack.length }

/-- A document: the live record sequence and its edit history. -/
structure Doc (α : Type) where
  observations : List α
  history : EditHistory α
deriving DecidableEq

/-- A document with a fresh edit history. -/
def Doc.mk' (observations : List α) : Doc α :=
  { observations := observations, history := EditHistory.empty α }

/-- Embedding of `Document.edit`: construct a `DocumentEdit` (validating the
indices), apply it, and append it to the history; appending a new edit clears
the redo stack (modelled from the spec for the missing `EditHistory.append`).
Returns the committed edit together with the new document state; a validation
failure returns the error and no state, matching the source, where the
exception propagates before any mutation. -/
def docEdit (d : Doc α) (name : String) (startIndex endIndex : ℤ)
    (observations : List α) : Except String (DocEdit α × Doc α) := do
  let e ← mkDocumentEdit name d.observations startIndex endIndex observations
  .ok (e, { observations := applyEdit e d.observations,
            history := { undoStack := e :: d.history.undoStack, redoStack := [],
                         savedPos := d.history.savedPos } })

/-- Embedding of `Document.undo`, with `EditHistory.undo` modelled from the
spec: pop the most recent edit, apply its inverse (`DocumentEdit.inverse`
constructs a fresh `DocumentEdit` over the new range, swapping old and new
record runs, per the source), and push the original edit onto the redo stack.
An empty undo stack is an `IndexError`, per the EditHistory tests. -/
def docUndo (d : Doc α) : Except String (DocEdit α × Doc α) :=
  match d.history.undoStack with
  | [] => .error ("IndexError: nothing to undo")
  | e :: rest => do
      let inv ← mkDocumentEdit (e.name ++ " Inverse") d.observations
        (e.startIndex : ℤ) ((e.startIndex + e.newObs.length : ℕ) : ℤ) e.oldObs
      .ok (inv, { observations := applyEdit inv d.observations,
                  history := { undoStack := rest, redoStack := e :: d.history.redoStack,
                               savedPos := d.history.savedPos } })

/-- Embedding of `Document.redo`, with `EditHistory.redo` modelled from the
spec: replay the most recently undone edit and push it back onto the undo
stack.  An empty redo stack is an `IndexError`, per the EditHistory tests. -/
def docRedo (d : Doc α) : Except String (DocEdit α × Doc α) :=
  match d.history.redoStack with
  | [] => .error ("IndexError: nothing to redo")
  | e :: rest =>
      .ok (e, { observations := applyEdit e d.observations,
                history := { undoStack := e :: d.history.undoStack, redoStack := rest,
                             savedPos := d.history.savedPos } })

/-- Embedding of the `Document.saved` property. -/
def docSaved (d : Doc α) : Bool :=
  d.history.documentSaved

/-- Embedding of `Document.markSaved`. -/
def docMarkSaved (d : Doc α) : Doc α :=
  { d with history := d.history.markDocumentSaved }

/-- A document operation submitted by a caller (for the notification trace
model): an edit request, an undo, or a redo. -/
inductive DocOp (α : Type) where
  | edit (name : String) (startIndex endIndex : ℤ) (observations : List α)
  | undo
  | redo
deriving DecidableEq

/-- An observable event of the edit model: an edit being applied to the record
sequence, or a listener being invoked with a committed edit. -/
inductive DocEvent (α : Type) where
  | applied (e : DocEdit α)
  | notified (listener : ℕ) (e : DocEdit α)
deriving DecidableEq

/-- Embedding of `Document._notifyEditListeners`: invoke every registered
listener, synchronously, with the committed edit.  The Python listener set is
modelled as a list of listener identifiers; its order stands for the set's
iteration order. -/
def notifyEditListeners (listeners : List ℕ) (e : DocEdit α) : List (DocEvent α) :=
  listeners.map (fun l => .notified l e)

/-- One step of the edit model: run a document operation, returning the new
state, the edit committed by the operation (if it succeeded), and the emitted
events.  A failed operation raises before mutating or notifying, so it commits
nothing and emits nothing. -/
def docStep (listeners : List ℕ) (d : Doc α) :
    DocOp α → Doc α × List (DocEdit α) × List (DocEvent α)
  | .edit name s e obs =>
      match docEdit d name s e obs with
      | .ok (ed, d') => (d', [ed], .applied ed :: notifyEditListeners listeners ed)
      | .error _ => (d, [], [])
  | .undo =>
      match docUndo d with
      | .ok (ed, d') => (d', [ed], .applied ed :: notifyEditListeners listeners ed)
      | .error _ => (d, [], [])
  | .redo =>
      match docRedo d with
      | .ok (ed, d') => (d', [ed], .applied ed :: notifyEditListeners listeners ed)
      | .error _ => (d, [], [])

/-- Run a sequence of document operations, accumulating the committed edits and
the event trace in order. -/
def docRun (listeners : List ℕ) (d : Doc α) :
    List (DocOp α) → Doc α × List (DocEdit α) × List (DocEvent α)
  | [] => (d, [], [])
  | op :: ops =>
      let (d', ce, ev) := docStep listeners d op
      let (d'', ces, evs) := docRun listeners d' ops
      (d'', ce ++ ces, ev ++ evs)

/-- The notifications a given listener receives, in order, extracted from an
event trace. -/
def notificationsFor (l : ℕ) (trace : List (DocEvent α)) : List (DocEdit α) :=
  trace.filterMap (fun ev =>
    match ev with
    | .notified l' e => if l' = l then some e else none
    | .applied _ => none)

/-- Record format data relevant to dispatch: the token position of the
discriminating key, the key's literal text, and the `_parseTokens` behavior of
the format, abstracted as a function (`π` stands for the parse result). -/
structure ObsFormatD (π : Type) where
  keyIndex : ℕ
  keyText : String
  runParse : List String → π

/-- Add a key to the key set grouped under the given token position,
mirroring `keySets[f._keyIndex].add(key)` on a `defaultdict(set)` (a new
position is appended in first-touch order, as Python dicts preserve insertion
order). -/
def addKeyToSets (sets : List (ℕ × Finset String)) (i : ℕ) (key : String) :
    List (ℕ × Finset String) :=
  match sets with
  | [] => [(i, {key})]
  | (j, ks) :: rest =>
      if j = i then (j, insert key ks) :: rest else (j, ks) :: addKeyToSets rest i key

/-- Insert a binding into an association list with Python-dict overwrite
semantics (replace in place if the key is present, else append). -/
def dictInsert (m : List (String × β)) (k : String) (v : β) : List (String × β) :=
  match m with
  | [] => [(k, v)]
  | (k', v') :: rest => if k' = k then (k, v) :: rest else (k', v') :: dictInsert rest k v

/-- Python-dict lookup in an association list. -/
def dictLookup (m : List (String × β)) (k : String) : Option β :=
  (m.find? (fun p => p.1 == k)).map (fun p => p.2)

/-- The dispatch tables built by `SimpleDocumentFormat.__init__`: the
`(keyIndex, keys)` pairs sorted by increasing key-set cardinality, and the map
from key tokens to record formats. -/
structure SimpleDocFormat (π : Type) where
  keySets : List (ℕ × Finset String)
  obsFormatsByKey : List (String × ObsFormatD π)

/-- Embedding of the dispatch-table construction in
`SimpleDocumentFormat.__init__`: group the formats' keys by key token
position, record the key-to-format map, and sort the groups by increasing
key-set cardinality (`self._keySets.sort(key=..., reverse=False)`). -/
def mkSimpleDocFormat (formats : List (ObsFormatD π)) : SimpleDocFormat π :=
  let tables := formats.foldl
    (fun acc f => (addKeyToSets acc.1 f.keyIndex f.keyText, dictInsert acc.2 f.keyText f))
    ([], [])
  { keySets := tables.1.mergeSort (fun a b => a.2.card ≤ b.2.card),
    obsFormatsByKey := tables.2 }

/-- The dispatch loop of `SimpleDocumentFormat._parseObs`: try the key-set
groups in order; the first group whose key set contains the token at the
group's position selects the format registered for that token, which parses
the whole token list; if no group matches, the record type cannot be
determined. -/
def dispatchKeySets (byKey : List (String × ObsFormatD π)) (tokens : List String) :
    List (ℕ × Finset String) → Except String π
  | [] => .error ("Observation type could not be determined.")
  | (i, ks) :: rest =>
      match tokens[i]? with
      | some tok =>
          if tok ∈ ks then
            match dictLookup byKey tok with
            | some f => .ok (f.runParse tokens)
            | none => .error ("KeyError")
          else dispatchKeySets byKey tokens rest
      | none => dispatchKeySets byKey tokens rest

/-- Embedding of `SimpleDocumentFormat._parseObs` on an already-tokenized
line. -/
def parseObsD (df : SimpleDocFormat π) (tokens : List String) : Except String π :=
  dispatchKeySets df.obsFormatsByKey tokens df.keySets

/-- The key-set group that dispatch accepts: the first group, in the sorted
order, whose token position holds a token belonging to its key set. -/
def firstMatchingKeySet (df : SimpleDocFormat π) (tokens : List String) :
    Option (ℕ × Finset String) :=
  df.keySets.find? (fun p =>
    match tokens[p.1]? with
    | some tok => decide (tok ∈ p.2)
    | none => false)

/-- Apply Python `dict.update` for a list of bindings, in order. -/
def dictUpdateMany (m : List (String × β)) (kvs : List (String × β)) : List (String × β) :=
  kvs.foldl (fun acc kv => dictInsert acc kv.1 kv.2) m

/-- Embedding of `_accumulateParentFields`: accumulate the field dictionaries
of the parent classes (given in method-resolution order, most specific first)
in reverse order, so that a more specific parent's binding overwrites a more
general one's. -/
def accumulateParentFields (parents : List (List (String × β))) : List (String × β) :=
  parents.reverse.foldl (fun acc p => dictUpdateMany acc p) []

/-- Embedding of the field computation in `_Metaclass.__new__`: accumulate the
parent fields, overwrite with the class's own field declarations, and lay the
result out in lexicographic field-name order (`sorted(fields.keys())`). -/
def composeFields (parents : List (List (String × β))) (newFields : List (String × β)) :
    List (String × β) :=
  let fields := dictUpdateMany (accumulateParentFields parents) newFields
  let names := (fields.map Prod.fst).mergeSort (fun a b => a ≤ b)
  names.filterMap (fun n => (dictLookup fields n).map (fun v => (n, v)))

/-- The most specific declaration of a field: the first field dictionary in
method-resolution order (the class's own declarations first, then the parents
from most specific to most general) that declares the name.  This is the
specification-side description that `composeFields` is proved to realize. -/
def firstDecl (dicts : List (List (String × β))) (n : String) : Option β :=
  match dicts with
  | [] => none
  | d :: rest => (dictLookup d n).or (firstDecl rest n)

/-- An observation field as `Observation.__init__` consumes it: a name, a
default value, and the validation `Field._setValue` runs on non-null values
(`β` is the field's value type; `none` is Python `None`). -/
structure ObsField (β : Type) where
  name : String
  default : Option β
  check : β → Bool

/-- Embedding of `Observation.__init__`: each declared field takes the
matching keyword argument if one is present, else the field's default, and the
value is set through `Field._setValue`, which validates non-null values.
Keyword arguments whose names match no declared field are never consulted. -/
def obsInit (fields : List (ObsField β)) (kwds : List (String × Option β)) :
    Except String (List (String × Option β)) :=
  fields.mapM (fun f =>
    let value := (dictLookup kwds f.name).getD f.default
    match value with
    | none => .ok (f.name, (none : Option β))
    | some v =>
        if f.check v then .ok (f.name, some v)
        else .error ("Bad value for field " ++ f.name ++ "."))

/-! Helper lemmas about decimal digit strings. -/

theorem digitChar_isDigit {d : ℕ} (h : d < 10) : (digitChar d).isDigit = true := by
  interval_cases d <;> decide

theorem digitVal_digitChar {d : ℕ} (h : d < 10) : digitVal (digitChar d) = d := by
  interval_cases d <;> decide

theorem natDecimalAux_all_isDigit (fuel n : ℕ) :
    (natDecimalAux fuel n).all Char.isDigit = true := by
  induction fuel generalizing n with
  | zero => rfl
  | succ f ih =>
      rw [natDecimalAux]
      by_cases hn : n = 0
      · simp [hn]
      · rw [if_neg hn]
        simp only [List.all_cons, Bool.and_eq_true]
        exact ⟨digitChar_isDigit (Nat.mod_lt n (by norm_num)), ih (n / 10)⟩

theorem natDecimal_all_isDigit (n : ℕ) : (natDecimal n).all Char.isDigit = true := by
  rw [natDecimal]
  by_cases hn : n = 0
  · simp [hn]
  · rw [if_neg hn, List.all_eq_true]
    intro c hc
    have := natDecimalAux_all_isDigit n n
    rw [List.all_eq_true] at this
    exact this c (List.mem_reverse.mp hc)

theorem natDecimal_ne_nil (n : ℕ) : natDecimal n ≠ [] := by
  rw [natDecimal]
  by_cases hn : n = 0
  · simp [hn]
  · rw [if_neg hn]
    intro h
    rw [List.reverse_eq_nil_iff] at h
    have : n ≤ n := le_refl n
    cases n with
    | zero => exact hn rfl
    | succ m =>
        rw [natDecimalAux, if_neg hn] at h
        exact List.cons_ne_nil _ _ h

theorem foldr_natDecimalAux (fuel : ℕ) :
    ∀ n : ℕ, n ≤ fuel →
      (natDecimalAux fuel n).foldr (fun c a => 10 * a + digitVal c) 0 = n := by
  induction fuel with
  | zero =>
      intro n hn
      have : n = 0 := Nat.le_zero.mp hn
      simp [this, natDecimalAux]
  | succ f ih =>
      intro n hn
      rw [natDecimalAux]
      by_cases hn0 : n = 0
      · simp [hn0]
      · rw [if_neg hn0]
        simp only [List.foldr_cons]
        have hdiv : n / 10 ≤ f := by
          have : n / 10 < n := Nat.div_lt_self (Nat.pos_of_ne_zero hn0) (by norm_num)
          omega
        rw [ih (n / 10) hdiv, digitVal_digitChar (Nat.mod_lt n (by norm_num))]
        omega

theorem natValL_natDecimal (n : ℕ) : natValL (natDecimal n) = n := by
  rw [natDecimal]
  by_cases hn : n = 0
  · simp [hn]; rfl
  · rw [if_neg hn, natValL, List.foldl_reverse]
    exact foldr_natDecimalAux n n (le_refl n)

theorem parseNatL_natDecimal (n : ℕ) : parseNatL (natDecimal n) = some n := by
  rw [parseNatL, if_neg (natDecimal_ne_nil n), if_pos (natDecimal_all_isDigit n),
    natValL_natDecimal]

theorem natDecimalAux_length_le (fuel : ℕ) :
    ∀ n k : ℕ, n < 10 ^ k → (natDecimalAux fuel n).length ≤ k := by
  induction fuel with
  | zero => intro n k _; simp [natDecimalAux]
  | succ f ih =>
      intro n k hk
      rw [natDecimalAux]
      by_cases hn : n = 0
      · simp [hn]
      · rw [if_neg hn]
        simp only [List.length_cons]
        cases k with
        | zero =>
            exfalso
            have : n < 1 := by simpa using hk
            omega
        | succ k' =>
            have hdiv : n / 10 < 10 ^ k' := by
              rw [Nat.div_lt_iff_lt_mul (by norm_num)]
              calc n < 10 ^ (k' + 1) := hk
                _ = 10 ^ k' * 10 := pow_succ 10 k'
            exact Nat.succ_le_succ (ih (n / 10) k' hdiv)

theorem natDecimal_length_le {n k : ℕ} (hk : 1 ≤ k) (h : n < 10 ^ k) :
    (natDecimal n).length ≤ k := by
  rw [natDecimal]
  by_cases hn : n = 0
  · simpa [hn] using hk
  · rw [if_neg hn, List.length_reverse]
    exact natDecimalAux_length_le n n k h

theorem natDecimal_length_pos (n : ℕ) : 1 ≤ (natDecimal n).length := by
  cases h : natDecimal n with
  | nil => exact absurd h (natDecimal_ne_nil n)
  | cons c cs => simp

theorem pad2_length {n : ℕ} (h : n < 100) : (pad2 n).length = 2 := by
  rw [pad2]
  have h2 : (natDecimal n).length ≤ 2 := natDecimal_length_le (by norm_num) (by omega)
  have h1 := natDecimal_length_pos n
  simp only [List.length_append, List.length_replicate]
  omega

theorem pad2_all_isDigit (n : ℕ) : (pad2 n).all Char.isDigit = true := by
  rw [pad2, List.all_append, Bool.and_eq_true]
  constructor
  · rw [List.all_eq_true]
    intro c hc
    rw [List.eq_of_mem_replicate hc]
    decide
  · exact natDecimal_all_isDigit n

theorem natValL_replicate_zero (k : ℕ) :
    List.foldl (fun a c => 10 * a + digitVal c) 0 (List.replicate k '0') = 0 := by
  induction k with
  | zero => rfl
  | succ m ih => simpa [List.replicate_succ] using ih

theorem natValL_pad2 (n : ℕ) : natValL (pad2 n) = n := by
  rw [pad2, natValL, List.foldl_append, natValL_replicate_zero]
  exact natValL_natDecimal n

theorem pad2_ne_nil (n : ℕ) : pad2 n ≠ [] := by
  rw [pad2]
  intro h
  rcases List.append_eq_nil.mp h with ⟨_, h2⟩
  exact natDecimal_ne_nil n h2

theorem parseNatL_pad2 (n : ℕ) : parseNatL (pad2 n) = some n := by
  rw [parseNatL, if_neg (pad2_ne_nil n), if_pos (pad2_all_isDigit n), natValL_pad2]

theorem isDigit_ne {c x : Char} (hc : c.isDigit = true) (hx : x.isDigit = false) : c ≠ x := by
  intro h
  rw [h] at hc
  rw [hc] at hx
  exact absurd hx (by decide)

theorem not_mem_of_all_isDigit {l : List Char} (h : l.all Char.isDigit = true)
    {x : Char} (hx : x.isDigit = false) : x ∉ l := by
  intro hmem
  rw [List.all_eq_true] at h
  have := h x hmem
  rw [this] at hx
  exact absurd hx (by decide)

theorem natDecimal_head_digit (n : ℕ) :
    ∃ c cs, natDecimal n = c :: cs ∧ c.isDigit = true := by
  cases h : natDecimal n with
  | nil => exact absurd h (natDecimal_ne_nil n)
  | cons c cs =>
      refine ⟨c, cs, rfl, ?_⟩
      have := natDecimal_all_isDigit n
      rw [h, List.all_cons, Bool.and_eq_true] at this
      exact this.1

/-! Helper lemmas about `splitCh`. -/

theorem splitCh_ne_nil (sep : Char) (l : List Char) : splitCh sep l ≠ [] := by
  cases l with
  | nil => simp [splitCh]
  | cons c cs =>
      rw [splitCh]
      cases h : splitCh sep cs with
      | nil => simp
      | cons g gs =>
          by_cases hc : c = sep
          · simp [hc]
          · simp [hc]

theorem splitCh_of_not_mem {sep : Char} {l : List Char} (h : sep ∉ l) :
    splitCh sep l = [l] := by
  induction l with
  | nil => rfl
  | cons c cs ih =>
      have hc : c ≠ sep := fun hcc => h (hcc ▸ List.mem_cons_self c cs)
      have hcs : sep ∉ cs := fun hmem => h (List.mem_cons_of_mem c hmem)
      rw [splitCh, ih hcs]
      simp [fun hcc : c = sep => hc hcc]

theorem splitCh_append {sep : Char} {a : List Char} (r : List Char) (h : sep ∉ a) :
    splitCh sep (a ++ sep :: r) = a :: splitCh sep r := by
  induction a with
  | nil =>
      simp only [List.nil_append]
      rw [splitCh]
      cases hr : splitCh sep r with
      | nil => exact absurd hr (splitCh_ne_nil sep r)
      | cons g gs => simp
  | cons c a ih =>
      have hc : c ≠ sep := fun hcc => h (hcc ▸ List.mem_cons_self c a)
      have ha : sep ∉ a := fun hmem => h (List.mem_cons_of_mem c hmem)
      simp only [List.cons_append]
      rw [splitCh, ih ha]
      simp [hc]

theorem splitCh_three {sep : Char} {a b c : List Char} (ha : sep ∉ a) (hb : sep ∉ b)
    (hc : sep ∉ c) : splitCh sep (a ++ sep :: (b ++ sep :: c)) = [a, b, c] := by
  rw [splitCh_append _ ha, splitCh_append _ hb, splitCh_of_not_mem hc]

/-! Helper lemmas about `pyReplace` and string escaping. -/

theorem isPrefixOf_single (a c : Char) (cs : List Char) :
    [a].isPrefixOf (c :: cs) = (a == c) := by
  simp [List.isPrefixOf]

theorem pyReplace_single_hit (x : Char) (rep b : List Char) :
    pyReplace [x] rep (x :: b) = rep ++ pyReplace [x] rep b := by
  rw [pyReplace, if_pos (by simp [List.isPrefixOf])]
  simp

theorem pyReplace_single_skip (x : Char) (rep : List Char) {a : List Char} (b : List Char)
    (h : x ∉ a) : pyReplace [x] rep (a ++ b) = a ++ pyReplace [x] rep b := by
  induction a with
  | nil => simp
  | cons c cs ih =>
      have hc : c ≠ x := fun hcc => h (hcc ▸ List.mem_cons_self c cs)
      have hcs : x ∉ cs := fun hmem => h (List.mem_cons_of_mem c hmem)
      rw [List.cons_append, pyReplace,
        if_neg (by simp [List.isPrefixOf]; exact fun hcc => hc hcc.symm)]
      rw [ih hcs, List.cons_append]

theorem pyReplace_pair_hit (x y : Char) (rep b : List Char) :
    pyReplace [x, y] rep (x :: y :: b) = rep ++ pyReplace [x, y] rep b := by
  rw [pyReplace, if_pos (by simp [List.isPrefixOf])]
  simp

theorem pyReplace_pair_skip1 (x y : Char) (rep : List Char) {c : Char} (b : List Char)
    (h : c ≠ x) : pyReplace [x, y] rep (c :: b) = c :: pyReplace [x, y] rep b := by
  rw [pyReplace, if_neg (by simp [List.isPrefixOf]; exact fun hcc => absurd hcc.symm h)]

theorem pyReplace_pair_skip2 (x y : Char) (rep : List Char) (c : Char) {d : Char}
    (b : List Char) (h : d ≠ y) :
    pyReplace [x, y] rep (c :: d :: b) = c :: pyReplace [x, y] rep (d :: b) := by
  rw [pyReplace]
  rw [if_neg]
  intro hcond
  have := hcond.2
  simp [List.isPrefixOf] at this
  exact h this.2.symm


theorem escape1_eq (l : List Char) :
    pyReplace ['\\'] ['\\', '\\'] l =
      l.flatMap (fun c => if c = '\\' then ['\\', '\\'] else [c]) := by
  induction l with
  | nil => simp [pyReplace]
  | cons c cs ih =>
      by_cases hc : c = '\\'
      · subst hc
        rw [pyReplace, if_pos (by simp [List.isPrefixOf])]
        simpa using ih
      · rw [pyReplace, if_neg (by simp [List.isPrefixOf]; exact fun h => hc h.symm)]
        simp [hc, ih]

theorem escape2_eq (l : List Char) :
    pyReplace ['"'] ['\\', '"']
        (l.flatMap (fun c => if c = '\\' then ['\\', '\\'] else [c])) =
      l.flatMap
        (fun c => if c = '\\' then ['\\', '\\'] else if c = '"' then ['\\', '"'] else [c]) := by
  induction l with
  | nil => simp [pyReplace]
  | cons c cs ih =>
      simp only [List.flatMap_cons]
      by_cases hb : c = '\\'
      · subst hb
        rw [if_pos rfl, if_pos rfl,
          pyReplace_single_skip '"' ['\\', '"'] _ (by decide), ih]
      · by_cases hq : c = '"'
        · subst hq
          rw [if_neg hb, if_neg hb, if_pos rfl, List.singleton_append,
            pyReplace_single_hit, ih]
        · rw [if_neg hb, if_neg hb, if_neg hq, List.singleton_append,
            show (c :: cs.flatMap (fun c => if c = '\\' then ['\\', '\\'] else [c])) =
              [c] ++ cs.flatMap (fun c => if c = '\\' then ['\\', '\\'] else [c]) from rfl,
            pyReplace_single_skip '"' ['\\', '"'] _
              (by simp; exact fun h => hq h.symm), ih, List.singleton_append]

theorem unescape1_eq (l : List Char) :
    pyReplace ['\\', '\\'] ['\\']
        (l.flatMap
          (fun c => if c = '\\' then ['\\', '\\'] else if c = '"' then ['\\', '"'] else [c])) =
      l.flatMap
        (fun c => if c = '\\' then ['\\'] else if c = '"' then ['\\', '"'] else [c]) := by
  induction l with
  | nil => simp [pyReplace]
  | cons c cs ih =>
      simp only [List.flatMap_cons]
      by_cases hb : c = '\\'
      · subst hb
        simp only [Char.reduceEq, reduceIte]
        rw [List.cons_append, List.cons_append, List.nil_append, pyReplace_pair_hit, ih,
          List.singleton_append]
      · by_cases hq : c = '"'
        · subst hq
          simp only [Char.reduceEq, reduceIte]
          rw [List.cons_append, List.cons_append, List.nil_append,
            pyReplace_pair_skip2 '\\' '\\' ['\\'] '\\' _ (by decide),
            pyReplace_pair_skip1 '\\' '\\' ['\\'] _ (by decide), ih]
          rfl
        · simp only [if_neg hb, if_neg hq]
          rw [List.singleton_append, pyReplace_pair_skip1 '\\' '\\' ['\\'] _ hb, ih,
            List.singleton_append]

theorem flatMap_e3_head (l : List Char) :
    (l.flatMap
        (fun c => if c = '\\' then ['\\'] else if c = '"' then ['\\', '"'] else [c])).head? ≠
      some '"' := by
  cases l with
  | nil => simp
  | cons c cs =>
      simp only [List.flatMap_cons]
      by_cases hb : c = '\\'
      · subst hb
        simp only [Char.reduceEq, reduceIte]
        simp
      · by_cases hq : c = '"'
        · subst hq
          simp only [Char.reduceEq, reduceIte]
          simp
        · simp only [if_neg hb, if_neg hq]
          rw [List.singleton_append]
          simpa using hq

theorem unescape2_eq (l : List Char) :
    pyReplace ['\\', '"'] ['"']
        (l.flatMap
          (fun c => if c = '\\' then ['\\'] else if c = '"' then ['\\', '"'] else [c])) =
      l := by
  induction l with
  | nil => simp [pyReplace]
  | cons c cs ih =>
      simp only [List.flatMap_cons]
      by_cases hb : c = '\\'
      · subst hb
        simp only [Char.reduceEq, reduceIte]
        rw [List.singleton_append]
        cases hrest : cs.flatMap
            (fun c => if c = '\\' then ['\\'] else if c = '"' then ['\\', '"'] else [c]) with
        | nil =>
            rw [hrest] at ih
            have hcs : cs = [] := by
              rw [show pyReplace ['\\', '"'] ['"'] [] = [] from by rw [pyReplace]] at ih
              exact ih.symm
            subst hcs
            rw [pyReplace, if_neg (by simp [List.isPrefixOf]), pyReplace]
        | cons h t =>
            have hgoal := flatMap_e3_head cs
            rw [hrest] at hgoal
            have hh : h ≠ '"' := by
              intro hc
              apply hgoal
              rw [hc]
              rfl
            rw [pyReplace_pair_skip2 '\\' '"' ['"'] '\\' _ hh, ← hrest, ih]
      · by_cases hq : c = '"'
        · subst hq
          simp only [Char.reduceEq, reduceIte]
          rw [List.cons_append, List.cons_append, List.nil_append, pyReplace_pair_hit, ih]
          rfl
        · simp only [if_neg hb, if_neg hq]
          rw [List.singleton_append, pyReplace_pair_skip1 '\\' '"' ['"'] _ hb, ih]

theorem unescape_escapeString (l : List Char) : unescapeString (escapeString l) = l := by
  rw [escapeString, escape1_eq, escape2_eq, unescapeString, unescape1_eq, unescape2_eq]

/-! Round-trip lemmas for the individual field formats. -/

theorem stringRound_editing {v : String} (h : v ≠ "") :
    stringParse (stringFormat (some v) true) true = .ok (some v) := by
  rw [stringFormat, stringParse]
  simp [EDITING_NONE, h]

theorem isDecimalString_ne_empty {v : String} (h : isDecimalString v = true) :
    v ≠ EDITING_NONE := by
  intro hv
  rw [hv] at h
  exact absurd h (by decide)

theorem isDecimalString_ne_none_token {v : String} (h : isDecimalString v = true) :
    v ≠ NONE_TOKEN := by
  intro hv
  rw [hv] at h
  exact absurd h (by decide)

theorem decimalRound {v : String} (h : isDecimalString v = true) (e : Bool) :
    decimalParse (decimalFormat (some v) e) e = .ok (some v) := by
  rw [decimalFormat, decimalParse, if_neg, if_pos h]
  simp [isDecimalString_ne_empty h, isDecimalString_ne_none_token h]

theorem intDecimal_neg {v : ℤ} (h : v < 0) : intDecimal v = '-' :: natDecimal v.natAbs :=
  if_pos h

theorem intDecimal_nonneg {v : ℤ} (h : ¬v < 0) : intDecimal v = natDecimal v.natAbs :=
  if_neg h

theorem intDecimal_ne_nil (v : ℤ) : intDecimal v ≠ [] := by
  by_cases h : v < 0
  · rw [intDecimal_neg h]; exact List.cons_ne_nil _ _
  · rw [intDecimal_nonneg h]; exact natDecimal_ne_nil _

theorem mk_intDecimal_ne_empty (v : ℤ) : String.mk (intDecimal v) ≠ EDITING_NONE := by
  intro hc
  have : intDecimal v = [] := by
    rw [String.ext_iff] at hc
    exact hc
  exact intDecimal_ne_nil v this

theorem mk_intDecimal_ne_none_token (v : ℤ) : String.mk (intDecimal v) ≠ NONE_TOKEN := by
  intro hc
  have hl : intDecimal v = ['N', 'o', 'n', 'e'] := by
    rw [String.ext_iff] at hc
    exact hc
  by_cases hv : v < 0
  · rw [intDecimal_neg hv] at hl
    have := List.head_eq_of_cons_eq hl
    exact absurd this (by decide)
  · rw [intDecimal_nonneg hv] at hl
    obtain ⟨c, cs, hcc, hd⟩ := natDecimal_head_digit v.natAbs
    rw [hcc] at hl
    have hcn := List.head_eq_of_cons_eq hl
    rw [hcn] at hd
    exact absurd hd (by decide)

theorem pyInt_intDecimal (v : ℤ) : pyInt (String.mk (intDecimal v)) = some v := by
  by_cases hv : v < 0
  · rw [pyInt]
    simp only [intDecimal_neg hv]
    simp [parseNatL_natDecimal]
    rw [abs_of_neg hv]
    ring
  · rw [pyInt]
    simp only [intDecimal_nonneg hv]
    obtain ⟨c, cs, hcc, hd⟩ := natDecimal_head_digit v.natAbs
    rw [hcc]
    dsimp only
    rw [if_neg (isDigit_ne hd (by decide)), if_neg (isDigit_ne hd (by decide)), ← hcc,
      parseNatL_natDecimal]
    simp
    exact not_lt.mp hv

theorem integerRound (v : ℤ) (e : Bool) :
    integerParse (integerFormat (some v) e) e = .ok (some v) := by
  rw [integerFormat, integerParse,
    if_neg (by simp [mk_intDecimal_ne_empty v, mk_intDecimal_ne_none_token v]),
    pyInt_intDecimal]

theorem pyFloat_intDecimal (v : ℤ) : pyFloat (String.mk (intDecimal v)) = some ((v : ℚ)) := by
  have hdot : ('.' : Char) ∉ natDecimal v.natAbs :=
    not_mem_of_all_isDigit (natDecimal_all_isDigit _) (by decide)
  by_cases hv : v < 0
  · rw [pyFloat]
    simp only [intDecimal_neg hv, List.head?_cons, List.tail_cons]
    norm_num
    rw [splitCh_of_not_mem hdot]
    simp [natDecimal_ne_nil, natValL_natDecimal]
    refine ⟨(v.natAbs : ℚ), ⟨fun x hx => List.all_eq_true.mp (natDecimal_all_isDigit _) x hx,
      rfl⟩, ?_⟩
    have h1 : ((v.natAbs : ℤ)) = -v := by omega
    calc -(v.natAbs : ℚ) = -((v.natAbs : ℤ) : ℚ) := by norm_cast
      _ = -((-v : ℤ) : ℚ) := by rw [h1]
      _ = (v : ℚ) := by push_cast; ring
  · rw [pyFloat]
    simp only [intDecimal_nonneg hv]
    obtain ⟨c, cs, hcc, hd⟩ := natDecimal_head_digit v.natAbs
    have hh : (natDecimal v.natAbs).head? = some c := by rw [hcc]; rfl
    simp only [hh]
    have hc1 : ¬ (some c = some '-') := by simp; exact isDigit_ne hd (by decide)
    have hc2 : ¬ (some c = some '+') := by simp; exact isDigit_ne hd (by decide)
    norm_num [hc1, hc2]
    rw [splitCh_of_not_mem hdot]
    simp [natDecimal_ne_nil, natValL_natDecimal]
    refine ⟨fun x hx => List.all_eq_true.mp (natDecimal_all_isDigit _) x hx, ?_⟩
    have h0 : (0 : ℚ) ≤ (v : ℚ) := by exact_mod_cast not_lt.mp hv
    push_cast [Int.cast_natAbs]
    exact abs_of_nonneg h0

theorem floatRound (v : ℤ) (e : Bool) :
    floatParse (floatFormat (some v) e) e = .ok (some ((v : ℚ))) := by
  rw [floatFormat, floatParse,
    if_neg (by simp [mk_intDecimal_ne_empty v, mk_intDecimal_ne_none_token v]),
    pyFloat_intDecimal]

theorem pythonRound_intCast (n : ℤ) : pythonRound ((n : ℚ)) = n := by
  rw [pythonRound]
  norm_num

theorem pythonRound_natCast (n : ℕ) : pythonRound ((n : ℚ)) = n := by
  have : ((n : ℚ)) = (((n : ℤ)) : ℚ) := by norm_cast
  rw [this, pythonRound_intCast]

theorem angleFormat_val (k : ℤ) (e : Bool) :
    angleFormat (some ((k : ℚ) / 3600)) e =
      String.mk ((if k < 0 then ['-'] else []) ++
        (natDecimal (k.natAbs / 60 / 60) ++
          ':' :: (pad2 (k.natAbs / 60 % 60) ++ ':' :: pad2 (k.natAbs % 60)))) := by
  have h3600 : (0 : ℚ) < 3600 := by norm_num
  have hvneg : ((k : ℚ) / 3600 < 0) ↔ k < 0 := by
    rw [div_lt_iff₀ h3600]
    norm_num
  have hmag : (if k < 0 then -((k : ℚ) / 3600) else (k : ℚ) / 3600) =
      (k.natAbs : ℚ) / 3600 := by
    by_cases hk : k < 0
    · rw [if_pos hk]
      rw [show ((k.natAbs : ℚ)) = -(k : ℚ) by
        push_cast [Int.cast_natAbs]
        rw [abs_of_neg (by exact_mod_cast hk)]]
      ring
    · rw [if_neg hk]
      rw [show ((k.natAbs : ℚ)) = (k : ℚ) by
        push_cast [Int.cast_natAbs]
        rw [abs_of_nonneg (by exact_mod_cast not_lt.mp hk)]]
  simp only [angleFormat, hvneg, hmag,
    mul_div_cancel₀ _ (by norm_num : (3600 : ℚ) ≠ 0), pythonRound_natCast,
    Int.toNat_natCast, List.append_assoc, List.cons_append]

theorem data_mk (l : List Char) : (String.mk l).data = l := rfl

theorem angleParse_ok (neg : Bool) (n : ℕ) (hn : n < 3600000) (e : Bool) :
    angleParse (String.mk ((if neg then ['-'] else []) ++
        (natDecimal (n / 60 / 60) ++
          ':' :: (pad2 (n / 60 % 60) ++ ':' :: pad2 (n % 60))))) e =
      .ok (some (if neg then -((n : ℚ) / 3600) else (n : ℚ) / 3600)) := by
  have hcd : (':' : Char) ∉ natDecimal (n / 60 / 60) :=
    not_mem_of_all_isDigit (natDecimal_all_isDigit _) (by decide)
  have hcm : (':' : Char) ∉ pad2 (n / 60 % 60) :=
    not_mem_of_all_isDigit (pad2_all_isDigit _) (by decide)
  have hcs : (':' : Char) ∉ pad2 (n % 60) :=
    not_mem_of_all_isDigit (pad2_all_isDigit _) (by decide)
  have hsplit := splitCh_three hcd hcm hcs
  have hbody_ne : (natDecimal (n / 60 / 60) ++
      ':' :: (pad2 (n / 60 % 60) ++ ':' :: pad2 (n % 60))) ≠ [] := by
    intro h
    rcases List.append_eq_nil.mp h with ⟨h1, _⟩
    exact natDecimal_ne_nil _ h1
  have hcolon_mem : (':' : Char) ∈ (if neg then ['-'] else []) ++
      (natDecimal (n / 60 / 60) ++ ':' :: (pad2 (n / 60 % 60) ++ ':' :: pad2 (n % 60))) := by
    apply List.mem_append_right
    apply List.mem_append_right
    exact List.mem_cons_self _ _
  have hne : String.mk ((if neg then ['-'] else []) ++
      (natDecimal (n / 60 / 60) ++ ':' :: (pad2 (n / 60 % 60) ++ ':' :: pad2 (n % 60)))) ≠
      EDITING_NONE := by
    intro hc
    rw [String.ext_iff] at hc
    rcases List.append_eq_nil.mp hc with ⟨_, h2⟩
    exact hbody_ne h2
  have hnn : String.mk ((if neg then ['-'] else []) ++
      (natDecimal (n / 60 / 60) ++ ':' :: (pad2 (n / 60 % 60) ++ ':' :: pad2 (n % 60)))) ≠
      NONE_TOKEN := by
    intro hc
    rw [String.ext_iff] at hc
    have hc2 : (if neg then ['-'] else []) ++
        (natDecimal (n / 60 / 60) ++ ':' :: (pad2 (n / 60 % 60) ++ ':' :: pad2 (n % 60))) =
        NONE_TOKEN.data := hc
    rw [hc2] at hcolon_mem
    exact absurd hcolon_mem (by decide)
  rw [angleParse, if_neg (by simp [hne, hnn])]
  have hld3 : (natDecimal (n / 60 / 60)).length ≤ 3 :=
    natDecimal_length_le (by norm_num) (by omega)
  have harith : ((natValL (natDecimal (n / 60 / 60)) : ℚ)) +
      (natValL (pad2 (n / 60 % 60)) : ℚ) / 60 + (natValL (pad2 (n % 60)) : ℚ) / 3600 =
      (n : ℚ) / 3600 := by
    rw [natValL_natDecimal, natValL_pad2, natValL_pad2]
    have hsum : 3600 * (n / 60 / 60) + 60 * (n / 60 % 60) + n % 60 = n := by omega
    have hq : ((3600 * (n / 60 / 60) + 60 * (n / 60 % 60) + n % 60 : ℕ) : ℚ) = (n : ℚ) := by
      exact_mod_cast congrArg (fun x : ℕ => ((x : ℚ))) hsum
    push_cast at hq
    field_simp
    linarith [hq]
  cases neg with
  | false =>
      obtain ⟨c, cs, hcc, hd⟩ := natDecimal_head_digit (n / 60 / 60)
      have hh : (natDecimal (n / 60 / 60) ++
          ':' :: (pad2 (n / 60 % 60) ++ ':' :: pad2 (n % 60))).head? = some c := by
        rw [hcc]
        rfl
      have hcne : ¬(c = '-') := isDigit_ne hd (by decide)
      simp only [data_mk]
      norm_num [hh]
      rw [if_neg hcne, hsplit]
      dsimp only
      rw [if_pos (⟨⟨⟨⟨⟨⟨natDecimal_length_pos _, hld3⟩,
        List.all_eq_true.mp (natDecimal_all_isDigit _)⟩,
        pad2_length (by omega : n / 60 % 60 < 100)⟩,
        List.all_eq_true.mp (pad2_all_isDigit _)⟩,
        pad2_length (by omega : n % 60 < 100)⟩,
        List.all_eq_true.mp (pad2_all_isDigit _)⟩)]
      rw [if_neg hcne, harith]
  | true =>
      simp only [data_mk]
      norm_num [hsplit]
      rw [if_pos (⟨⟨⟨⟨⟨⟨natDecimal_length_pos _, hld3⟩,
        List.all_eq_true.mp (natDecimal_all_isDigit _)⟩,
        pad2_length (by omega : n / 60 % 60 < 100)⟩,
        List.all_eq_true.mp (pad2_all_isDigit _)⟩,
        pad2_length (by omega : n % 60 < 100)⟩,
        List.all_eq_true.mp (pad2_all_isDigit _)⟩)]
      congr 2
      linarith [harith]

theorem angleRound (k : ℤ) (hk : |k| < 3600000) (e : Bool) :
    angleParse (angleFormat (some ((k : ℚ) / 3600)) e) e = .ok (some ((k : ℚ) / 3600)) := by
  rw [angleFormat_val]
  have hn : k.natAbs < 3600000 := by
    rw [Int.abs_eq_natAbs] at hk
    exact_mod_cast hk
  by_cases hkneg : k < 0
  · rw [if_pos hkneg]
    have hcast : ((k.natAbs : ℚ)) = -(k : ℚ) := by
      push_cast [Int.cast_natAbs]
      rw [abs_of_neg (by exact_mod_cast hkneg)]
    have h2 := angleParse_ok true k.natAbs hn e
    norm_num at h2
    rw [show ((k : ℚ) / 3600) = -((k.natAbs : ℚ) / 3600) by rw [hcast]; ring]
    rw [List.singleton_append]
    exact h2
  · rw [if_neg hkneg]
    have hcast : ((k.natAbs : ℚ)) = (k : ℚ) := by
      push_cast [Int.cast_natAbs]
      rw [abs_of_nonneg (by exact_mod_cast not_lt.mp hkneg)]
    have h2 := angleParse_ok false k.natAbs hn e
    norm_num at h2
    rw [show ((k : ℚ) / 3600) = ((k.natAbs : ℚ) / 3600) by rw [hcast]]
    rw [List.nil_append]
    exact h2

theorem timeRound {t : PyTime} (hv : isValidTime t = true) (e : Bool) :
    timeParse (timeFormat (some t) e) e = .ok (some t) := by
  obtain ⟨hr, mi, se⟩ := t
  rw [isValidTime] at hv
  simp only [Bool.and_eq_true, decide_eq_true_eq] at hv
  obtain ⟨⟨h1, h2⟩, h3⟩ := hv
  have hcd : (':' : Char) ∉ natDecimal hr :=
    not_mem_of_all_isDigit (natDecimal_all_isDigit _) (by decide)
  have hcm : (':' : Char) ∉ pad2 mi :=
    not_mem_of_all_isDigit (pad2_all_isDigit _) (by decide)
  have hcs : (':' : Char) ∉ pad2 se :=
    not_mem_of_all_isDigit (pad2_all_isDigit _) (by decide)
  have hsplit := splitCh_three hcd hcm hcs
  have hcolon_mem : (':' : Char) ∈ natDecimal hr ++ ':' :: (pad2 mi ++ ':' :: pad2 se) := by
    apply List.mem_append_right
    exact List.mem_cons_self _ _
  have hne : String.mk (natDecimal hr ++ ':' :: (pad2 mi ++ ':' :: pad2 se)) ≠
      EDITING_NONE := by
    intro hc
    rw [String.ext_iff] at hc
    rcases List.append_eq_nil.mp hc with ⟨hx, _⟩
    exact natDecimal_ne_nil _ hx
  have hnn : String.mk (natDecimal hr ++ ':' :: (pad2 mi ++ ':' :: pad2 se)) ≠
      NONE_TOKEN := by
    intro hc
    rw [String.ext_iff] at hc
    have hc2 : natDecimal hr ++ ':' :: (pad2 mi ++ ':' :: pad2 se) = NONE_TOKEN.data := hc
    rw [hc2] at hcolon_mem
    exact absurd hcolon_mem (by decide)
  rw [timeFormat, timeParse, if_neg (by simp [hne, hnn])]
  simp only [data_mk, List.append_assoc, List.cons_append]
  rw [hsplit]
  dsimp only
  rw [if_pos (by
    simp only [Bool.and_eq_true, decide_eq_true_eq]
    refine ⟨⟨⟨⟨⟨⟨natDecimal_length_pos _, ?_⟩, natDecimal_all_isDigit _⟩,
      pad2_length (by omega)⟩, pad2_all_isDigit _⟩, pad2_length (by omega)⟩,
      pad2_all_isDigit _⟩
    exact natDecimal_length_le (by norm_num) (by omega))]
  rw [natValL_natDecimal, natValL_pad2, natValL_pad2]
  rw [if_neg (by omega), if_neg (by omega), if_neg (by omega)]

theorem dateRound {d : PyDate} (hv : isValidDate d = true) (hy1 : 1970 ≤ d.year)
    (hy2 : d.year ≤ 2069) (e : Bool) :
    dateParse (dateFormat (some d) e) e = .ok (some d) := by
  obtain ⟨yr, mo, dy⟩ := d
  rw [isValidDate] at hv
  simp only [Bool.and_eq_true, decide_eq_true_eq] at hv
  obtain ⟨⟨⟨⟨⟨hv1, hv2⟩, hm1⟩, hm2⟩, hd1⟩, hd2⟩ := hv
  simp only at hy1 hy2 hd2
  have hcd : ('/' : Char) ∉ natDecimal mo :=
    not_mem_of_all_isDigit (natDecimal_all_isDigit _) (by decide)
  have hcm : ('/' : Char) ∉ natDecimal dy :=
    not_mem_of_all_isDigit (natDecimal_all_isDigit _) (by decide)
  have hcs : ('/' : Char) ∉ pad2 (yr % 100) :=
    not_mem_of_all_isDigit (pad2_all_isDigit _) (by decide)
  have hsplit := splitCh_three hcd hcm hcs
  have hslash_mem : ('/' : Char) ∈
      natDecimal mo ++ '/' :: (natDecimal dy ++ '/' :: pad2 (yr % 100)) := by
    apply List.mem_append_right
    exact List.mem_cons_self _ _
  have hne : String.mk (natDecimal mo ++ '/' :: (natDecimal dy ++ '/' :: pad2 (yr % 100))) ≠
      EDITING_NONE := by
    intro hc
    rw [String.ext_iff] at hc
    rcases List.append_eq_nil.mp hc with ⟨hx, _⟩
    exact natDecimal_ne_nil _ hx
  have hnn : String.mk (natDecimal mo ++ '/' :: (natDecimal dy ++ '/' :: pad2 (yr % 100))) ≠
      NONE_TOKEN := by
    intro hc
    rw [String.ext_iff] at hc
    have hc2 : natDecimal mo ++ '/' :: (natDecimal dy ++ '/' :: pad2 (yr % 100)) =
        NONE_TOKEN.data := hc
    rw [hc2] at hslash_mem
    exact absurd hslash_mem (by decide)
  have h31 : daysInMonth yr mo ≤ 31 := by
    rw [daysInMonth]
    split_ifs <;> omega
  rw [dateFormat, dateParse, if_neg (by simp [hne, hnn])]
  simp only [data_mk, List.append_assoc, List.cons_append]
  rw [hsplit]
  dsimp only
  rw [if_pos (by
    simp only [Bool.and_eq_true, decide_eq_true_eq]
    refine ⟨⟨⟨⟨⟨⟨⟨natDecimal_length_pos _, ?_⟩, natDecimal_all_isDigit _⟩,
      natDecimal_length_pos _⟩, ?_⟩, natDecimal_all_isDigit _⟩,
      pad2_length (by omega)⟩, pad2_all_isDigit _⟩
    · exact natDecimal_length_le (by norm_num) (by omega)
    · exact natDecimal_length_le (by norm_num) (by omega))]
  rw [natValL_natDecimal, natValL_natDecimal, natValL_pad2]
  have hyr : yr % 100 + (if yr % 100 < 70 then 2000 else 1900) = yr := by
    by_cases h : yr % 100 < 70
    · rw [if_pos h]
      omega
    · rw [if_neg h]
      omega
  rw [hyr]
  rw [if_neg (by simp only [Bool.or_eq_true, decide_eq_true_eq]; omega),
    if_neg (by simp only [Bool.or_eq_true, decide_eq_true_eq]; omega)]

theorem unescape_nil : unescapeString [] = [] := by
  rw [unescapeString]
  rw [show pyReplace ['\\', '\\'] ['\\'] [] = [] from by rw [pyReplace]]
  rw [pyReplace]

theorem stringRound_display {v : String} (h : v ≠ NONE_TOKEN) :
    stringParse (stringFormat (some v) false) false = .ok (some v) := by
  obtain ⟨l⟩ := v
  rw [stringFormat]
  norm_num
  by_cases h0 : l = []
  · subst h0
    rw [if_pos rfl]
    rw [stringParse]
    norm_num [EDITING_NONE]
    rw [unescape_nil]
    rw [if_neg (by decide)]
  · rw [if_neg (by simpa [data_mk] using h0)]
    by_cases hq : l.any quotableChar
    · rw [if_pos (by simpa [data_mk] using hq)]
      rw [stringParse]
      norm_num
      have hnetok : (String.mk ('"' :: (escapeString l ++ ['"']))) ≠ NONE_TOKEN := by
        intro hc
        rw [String.ext_iff] at hc
        have hc2 : '"' :: (escapeString l ++ ['"']) = NONE_TOKEN.data := hc
        have := List.head_eq_of_cons_eq hc2
        exact absurd this (by decide)
      rw [if_neg hnetok, unescape_escapeString]
    · rw [if_neg (by simpa [data_mk] using hq)]
      rw [stringParse]
      norm_num
      rw [if_neg h]
      cases l with
      | nil => exact absurd rfl h0
      | cons c cs =>
          have hcq : ¬(c = '"') := by
            intro hc
            apply h0
            rw [List.any_eq_true] at hq
            exact absurd ⟨c, List.mem_cons_self c cs, by rw [hc]; decide⟩ hq
          dsimp only
          rw [if_neg hcq]

/-- Claim C1 (amended).  For the field formats of SimpleDocumentFormat,
`parse (format v e) e = v` holds for every valid value and both editing modes
with these exceptions, which the counterexample forces: a String value equal
to the display-mode null token display-parses to null, and the empty String
value editing-parses to null; an Angle value round-trips exactly when it is a
whole number of arcseconds below 1000 degrees (formatting rounds to the
nearest arcsecond); a Date round-trips exactly for years 1970-2069 (the
two-digit-year pivot); the Float format (modelled on integer-valued floats)
round-trips values of magnitude below 10^16, the exact range of the default
16-significant-digit template.  Null round-trips through the mode-specific
null token in every format and both modes. -/
theorem C1_round_trip :
    (∀ v : String, v ≠ NONE_TOKEN →
      stringParse (stringFormat (some v) false) false = .ok (some v)) ∧
    (∀ v : String, v ≠ EDITING_NONE →
      stringParse (stringFormat (some v) true) true = .ok (some v)) ∧
    (∀ v : String, isDecimalString v = true → ∀ e : Bool,
      decimalParse (decimalFormat (some v) e) e = .ok (some v)) ∧
    (∀ v : ℤ, ∀ e : Bool, integerParse (integerFormat (some v) e) e = .ok (some v)) ∧
    (∀ v : ℤ, |v| < 10 ^ 16 → ∀ e : Bool,
      floatParse (floatFormat (some v) e) e = .ok (some ((v : ℚ)))) ∧
    (∀ k : ℤ, |k| < 3600000 → ∀ e : Bool,
      angleParse (angleFormat (some ((k : ℚ) / 3600)) e) e = .ok (some ((k : ℚ) / 3600))) ∧
    (∀ d : PyDate, isValidDate d = true → 1970 ≤ d.year → d.year ≤ 2069 → ∀ e : Bool,
      dateParse (dateFormat (some d) e) e = .ok (some d)) ∧
    (∀ t : PyTime, isValidTime t = true → ∀ e : Bool,
      timeParse (timeFormat (some t) e) e = .ok (some t)) ∧
    (∀ e : Bool,
      stringParse (stringFormat none e) e = .ok none ∧
      decimalParse (decimalFormat none e) e = .ok none ∧
      integerParse (integerFormat none e) e = .ok none ∧
      floatParse (floatFormat none e) e = .ok none ∧
      angleParse (angleFormat none e) e = .ok none ∧
      dateParse (dateFormat none e) e = .ok none ∧
      timeParse (timeFormat none e) e = .ok none) := by
  refine ⟨fun v h => stringRound_display h, fun v h => stringRound_editing h,
    fun v h e => decimalRound h e, fun v e => integerRound v e,
    fun v _ e => floatRound v e, fun k h e => angleRound k h e,
    fun d hv h1 h2 e => dateRound hv h1 h2 e, fun t hv e => timeRound hv e,
    fun e => ?_⟩
  cases e <;> exact ⟨by decide, by decide, by decide, by decide, by decide, by decide,
    by decide⟩

/-- Claim C1, counterexample to the claim as stated: the empty string is a
valid String field value, but formatting it for editing yields the
editing-mode null token, which parses back to null, not to the empty
string. -/
theorem C1_counterexample :
    stringParse (stringFormat (some "") true) true = .ok none ∧
    stringParse (stringFormat (some "") true) true ≠ .ok (some "") := by
  exact ⟨by decide, by decide⟩

/-- Witness for C1: the round-trip theorem applied at concrete inputs. -/
theorem C1_round_trip_witness :
    stringParse (stringFormat (some "abc") false) false = .ok (some "abc") ∧
    stringParse (stringFormat (some "a b") true) true = .ok (some "a b") ∧
    decimalParse (decimalFormat (some "1.5") false) false = .ok (some "1.5") ∧
    integerParse (integerFormat (some (-7)) true) true = .ok (some (-7)) ∧
    floatParse (floatFormat (some 12) false) false = .ok (some ((12 : ℚ))) ∧
    angleParse (angleFormat (some ((4500 : ℚ) / 3600)) false) false =
      .ok (some ((4500 : ℚ) / 3600)) ∧
    dateParse (dateFormat (some ⟨1970, 1, 2⟩) false) false = .ok (some ⟨1970, 1, 2⟩) ∧
    timeParse (timeFormat (some ⟨23, 59, 59⟩) true) true = .ok (some ⟨23, 59, 59⟩) :=
  ⟨C1_round_trip.1 "abc" (by decide),
    C1_round_trip.2.1 "a b" (by decide),
    C1_round_trip.2.2.1 "1.5" (by decide) false,
    C1_round_trip.2.2.2.1 (-7) true,
    C1_round_trip.2.2.2.2.1 12 (by decide) false,
    C1_round_trip.2.2.2.2.2.1 4500 (by decide) false,
    C1_round_trip.2.2.2.2.2.2.1 ⟨1970, 1, 2⟩ (by decide) (by decide) (by decide) false,
    C1_round_trip.2.2.2.2.2.2.2.1 ⟨23, 59, 59⟩ (by decide) true⟩

/-! Lemmas for the document edit model. -/

theorem checkEditIndex_ok {index : ℤ} {maxIndex : ℕ} (h0 : 0 ≤ index)
    (h1 : index ≤ (maxIndex : ℤ)) (which : String) :
    checkEditIndex index maxIndex which = .ok () := by
  rw [checkEditIndex, if_neg (by omega), if_neg (by omega)]

theorem checkEditIndices_ok {s e : ℤ} {n : ℕ} (h0 : 0 ≤ s) (h1 : s ≤ e)
    (h2 : e ≤ (n : ℤ)) : checkEditIndices s e n = .ok () := by
  rw [checkEditIndices]
  rw [checkEditIndex_ok h0 (by omega), checkEditIndex_ok (by omega) h2]
  show (if e < s then Except.error ("Edit end index must be at least start index.")
    else Except.ok ()) = Except.ok ()
  rw [if_neg (by omega)]

theorem mkDocumentEdit_ok {α : Type} (name : String) (records : List α) {s e : ℤ}
    (h0 : 0 ≤ s) (h1 : s ≤ e) (h2 : e ≤ (records.length : ℤ)) (obs : List α) :
    mkDocumentEdit name records s e obs =
      .ok { name := name, startIndex := s.toNat, endIndex := e.toNat,
            oldObs := pySlice records s.toNat e.toNat, newObs := obs } := by
  rw [mkDocumentEdit, checkEditIndices_ok h0 h1 h2]
  rfl

theorem take_of_edited {α : Type} (records new : List α) {st en : ℕ}
    (hsn : st ≤ records.length) :
    (records.take st ++ new ++ records.drop en).take st = records.take st := by
  rw [List.append_assoc]
  exact List.take_left' (by rw [List.length_take]; omega)

theorem drop_of_edited {α : Type} (records new : List α) {st en : ℕ}
    (hsn : st ≤ records.length) :
    (records.take st ++ new ++ records.drop en).drop (st + new.length) =
      records.drop en := by
  apply List.drop_left'
  rw [List.length_append, List.length_take]
  omega

theorem pySlice_of_edited {α : Type} (records new : List α) {st en : ℕ}
    (hsn : st ≤ records.length) :
    pySlice (records.take st ++ new ++ records.drop en) st (st + new.length) = new := by
  rw [pySlice]
  have h1 : (records.take st ++ new ++ records.drop en).take (st + new.length) =
      records.take st ++ new := by
    apply List.take_left'
    rw [List.length_append, List.length_take]
    omega
  rw [h1]
  apply List.drop_left'
  rw [List.length_take]
  omega

theorem restore_of_slice {α : Type} (records : List α) {st en : ℕ} (h1 : st ≤ en) :
    records.take st ++ (pySlice records st en ++ records.drop en) = records := by
  rw [pySlice]
  rw [show records.take st = (records.take en).take st from by
    rw [List.take_take, min_eq_left h1]]
  rw [← List.append_assoc, List.take_append_drop, List.take_append_drop]

theorem docUndo_ok {α : Type} (obs : List α) (E : DocEdit α) (rest redo : List (DocEdit α))
    (sp : ℕ) (h : E.startIndex + E.newObs.length ≤ obs.length) :
    docUndo ⟨obs, ⟨E :: rest, redo, sp⟩⟩ =
      .ok ({ name := E.name ++ " Inverse", startIndex := E.startIndex,
             endIndex := E.startIndex + E.newObs.length,
             oldObs := pySlice obs E.startIndex (E.startIndex + E.newObs.length),
             newObs := E.oldObs },
           { observations := obs.take E.startIndex ++ E.oldObs ++
               obs.drop (E.startIndex + E.newObs.length),
             history := ⟨rest, E :: redo, sp⟩ }) := by
  rw [docUndo]
  dsimp only
  rw [mkDocumentEdit_ok _ _ (by positivity) (by exact_mod_cast Nat.le_add_right _ _)
    (by exact_mod_cast h) _]
  have hcast : ((E.startIndex : ℤ) + (E.newObs.length : ℤ)).toNat =
      E.startIndex + E.newObs.length := by omega
  simp [Int.toNat_natCast, applyEdit, hcast]
  rfl

theorem docRedo_ok {α : Type} (obs : List α) (E : DocEdit α)
    (undo rest : List (DocEdit α)) (sp : ℕ) :
    docRedo ⟨obs, ⟨undo, E :: rest, sp⟩⟩ =
      .ok (E, { observations := applyEdit E obs, history := ⟨E :: undo, rest, sp⟩ }) := by
  rfl

/-- Claim C2.  `Document.edit` with valid indices replaces the slice
`records[start:end]` with the new records; a subsequent undo restores the
original sequence exactly, and a subsequent redo reapplies the edit, yielding
the replaced sequence again — for every document (any record sequence and any
prior edit history) and every such edit.  `EditHistory` is modelled from the
spec (EditHistory.py is absent from the source tree). -/
theorem C2_edit_undo_redo {α : Type} (h0 : EditHistory α) (name : String)
    (records newRecords : List α) (start endI : ℤ) (hs0 : 0 ≤ start)
    (hse : start ≤ endI) (hen : endI ≤ (records.length : ℤ)) :
    ∃ e1 d1 e2 d2 e3 d3,
      docEdit ⟨records, h0⟩ name start endI newRecords = .ok (e1, d1) ∧
      d1.observations =
        records.take start.toNat ++ newRecords ++ records.drop endI.toNat ∧
      docUndo d1 = .ok (e2, d2) ∧ d2.observations = records ∧
      docRedo d2 = .ok (e3, d3) ∧
      d3.observations =
        records.take start.toNat ++ newRecords ++ records.drop endI.toNat := by
  have hstn : start.toNat ≤ endI.toNat := by omega
  have henl : endI.toNat ≤ records.length := by omega
  have hstl : start.toNat ≤ records.length := by omega
  have hedit : docEdit ⟨records, h0⟩ name start endI newRecords =
      .ok ({ name := name, startIndex := start.toNat, endIndex := endI.toNat,
             oldObs := pySlice records start.toNat endI.toNat, newObs := newRecords },
           { observations :=
               records.take start.toNat ++ newRecords ++ records.drop endI.toNat,
             history :=
               { undoStack :=
                   { name := name, startIndex := start.toNat, endIndex := endI.toNat,
                     oldObs := pySlice records start.toNat endI.toNat,
                     newObs := newRecords } :: h0.undoStack,
                 redoStack := [], savedPos := h0.savedPos } }) := by
    rw [docEdit, mkDocumentEdit_ok name records hs0 hse hen]
    rfl
  have hundo := docUndo_ok
    (records.take start.toNat ++ newRecords ++ records.drop endI.toNat)
    { name := name, startIndex := start.toNat, endIndex := endI.toNat,
      oldObs := pySlice records start.toNat endI.toNat, newObs := newRecords }
    h0.undoStack [] h0.savedPos
    (by
      simp only [List.length_append, List.length_take, List.length_drop]
      omega)
  dsimp only at hundo
  rw [take_of_edited records newRecords hstl, drop_of_edited records newRecords hstl,
    pySlice_of_edited records newRecords hstl] at hundo
  rw [show List.take start.toNat records ++ pySlice records start.toNat endI.toNat ++
      List.drop endI.toNat records = records from by
    rw [List.append_assoc]
    exact restore_of_slice records hstn] at hundo
  refine ⟨_, _, _, _, _, _, hedit, rfl, hundo, rfl, docRedo_ok records _ h0.undoStack [] _,
    rfl⟩

theorem checkEditIndices_error {s e : ℤ} {n : ℕ}
    (h : e < s ∨ s < 0 ∨ (n : ℤ) < e) :
    ∃ m, checkEditIndices s e n = .error m := by
  rw [checkEditIndices]
  by_cases h1 : s < 0
  · refine ⟨"Edit " ++ "start" ++ " index must be at least zero.", ?_⟩
    rw [checkEditIndex, if_pos h1]
    rfl
  · by_cases h2 : s > (n : ℤ)
    · refine ⟨"Edit " ++ "start" ++ " index must not exceed document length.", ?_⟩
      rw [checkEditIndex, if_neg h1, if_pos h2]
      rfl
    · rw [checkEditIndex_ok (by omega) (by omega)]
      by_cases h3 : e < 0
      · refine ⟨"Edit " ++ "end" ++ " index must be at least zero.", ?_⟩
        rw [checkEditIndex, if_pos h3]
        rfl
      · by_cases h4 : e > (n : ℤ)
        · refine ⟨"Edit " ++ "end" ++ " index must not exceed document length.", ?_⟩
          rw [checkEditIndex, if_neg h3, if_pos h4]
          rfl
        · refine ⟨"Edit end index must be at least start index.", ?_⟩
          rw [checkEditIndex_ok (by omega) (by omega)]
          have h5 : e < s := by omega
          show (if e < s then Except.error ("Edit end index must be at least start index.")
            else Except.ok ()) = _
          rw [if_pos h5]

/-- Claim C3.  `Document.edit` called with `start > end`, `start < 0`, or
`end > length` raises an index-error: the checks run in
`DocumentEdit.__init__`, before the slice is captured, the splice applied, or
anything appended to the edit history, so the failed edit commits nothing —
in this pure embedding the operation returns the error and no new document
state. -/
theorem C3_edit_invalid_indices {α : Type} (d : Doc α) (name : String)
    (start endI : ℤ) (newRecords : List α)
    (h : start > endI ∨ start < 0 ∨ endI > (d.observations.length : ℤ)) :
    (∃ msg, docEdit d name start endI newRecords = .error msg) ∧
      ∀ p, docEdit d name start endI newRecords ≠ .ok p := by
  obtain ⟨m, hm⟩ := checkEditIndices_error (s := start) (e := endI)
    (n := d.observations.length) (by omega)
  have herr : docEdit d name start endI newRecords = .error m := by
    rw [docEdit, mkDocumentEdit, hm]
    rfl
  exact ⟨⟨m, herr⟩, fun p hp => by rw [herr] at hp; exact absurd hp (by simp)⟩

/-- Witness for C3 at the concrete input of the specification: a four-element
document and each of the three kinds of invalid index pair. -/
theorem C3_edit_invalid_indices_witness :
    ((∃ msg, docEdit (Doc.mk' [0, 1, 2, 3]) "Bad" 3 1 [(9 : ℤ)] = .error msg) ∧
      ∀ p, docEdit (Doc.mk' [0, 1, 2, 3]) "Bad" 3 1 [(9 : ℤ)] ≠ .ok p) ∧
    ((∃ msg, docEdit (Doc.mk' [0, 1, 2, 3]) "Bad" (-1) 1 [(9 : ℤ)] = .error msg) ∧
      ∀ p, docEdit (Doc.mk' [0, 1, 2, 3]) "Bad" (-1) 1 [(9 : ℤ)] ≠ .ok p) ∧
    ((∃ msg, docEdit (Doc.mk' [0, 1, 2, 3]) "Bad" 1 5 [(9 : ℤ)] = .error msg) ∧
      ∀ p, docEdit (Doc.mk' [0, 1, 2, 3]) "Bad" 1 5 [(9 : ℤ)] ≠ .ok p) :=
  ⟨C3_edit_invalid_indices (Doc.mk' [0, 1, 2, 3]) ("Bad") 3 1 [(9 : ℤ)] (by decide),
   C3_edit_invalid_indices (Doc.mk' [0, 1, 2, 3]) ("Bad") (-1) 1 [(9 : ℤ)] (by decide),
   C3_edit_invalid_indices (Doc.mk' [0, 1, 2, 3]) ("Bad") 1 5 [(9 : ℤ)] (by decide)⟩

theorem docEdit_history {α : Type} {d : Doc α} {name : String} {s e : ℤ}
    {new : List α} {ed : DocEdit α} {d' : Doc α}
    (h : docEdit d name s e new = .ok (ed, d')) :
    d'.history = { undoStack := ed :: d.history.undoStack, redoStack := [],
                   savedPos := d.history.savedPos } := by
  rw [docEdit] at h
  cases hmk : mkDocumentEdit name d.observations s e new with
  | error m => rw [hmk] at h; exact Except.noConfusion h
  | ok E =>
      rw [hmk] at h
      have h2 : (Except.ok (E,
          { observations := applyEdit E d.observations,
            history := { undoStack := E :: d.history.undoStack, redoStack := [],
                         savedPos := d.history.savedPos } }) :
          Except String (DocEdit α × Doc α)) = Except.ok (ed, d') := h
      simp only [Except.ok.injEq, Prod.mk.injEq] at h2
      obtain ⟨he, hd⟩ := h2
      subst hd he
      rfl

theorem docUndo_history {α : Type} {d : Doc α} {e2 : DocEdit α} {d2 : Doc α}
    (h : docUndo d = .ok (e2, d2)) :
    ∃ E, d.history.undoStack = E :: d2.history.undoStack ∧
      d2.history.redoStack = E :: d.history.redoStack ∧
      d2.history.savedPos = d.history.savedPos := by
  rw [docUndo] at h
  cases hs : d.history.undoStack with
  | nil => rw [hs] at h; exact Except.noConfusion h
  | cons E rest =>
      rw [hs] at h
      dsimp only at h
      cases hmk : mkDocumentEdit (E.name ++ " Inverse") d.observations
          (E.startIndex : ℤ) ((E.startIndex + E.newObs.length : ℕ) : ℤ) E.oldObs with
      | error m => rw [hmk] at h; exact Except.noConfusion h
      | ok inv =>
          rw [hmk] at h
          have h2 : (Except.ok (inv,
              { observations := applyEdit inv d.observations,
                history := { undoStack := rest, redoStack := E :: d.history.redoStack,
                             savedPos := d.history.savedPos } }) :
              Except String (DocEdit α × Doc α)) = Except.ok (e2, d2) := h
          simp only [Except.ok.injEq, Prod.mk.injEq] at h2
          obtain ⟨he, hd⟩ := h2
          subst hd
          exact ⟨E, rfl, rfl, rfl⟩

theorem docRedo_history {α : Type} {d : Doc α} {e3 : DocEdit α} {d3 : Doc α}
    (h : docRedo d = .ok (e3, d3)) :
    d.history.redoStack = e3 :: d3.history.redoStack ∧
      d3.history.undoStack = e3 :: d.history.undoStack ∧
      d3.history.savedPos = d.history.savedPos := by
  rw [docRedo] at h
  cases hs : d.history.redoStack with
  | nil => rw [hs] at h; exact Except.noConfusion h
  | cons E rest =>
      rw [hs] at h
      dsimp only at h
      simp only [Except.ok.injEq, Prod.mk.injEq] at h
      obtain ⟨he, hd⟩ := h
      subst hd he
      exact ⟨by simp [hs], rfl, rfl⟩

/-- Claim C5.  The document saved flag is true exactly when the current
position in the undo/redo timeline (the undo-stack depth) equals the position
recorded at the last mark-saved call (initially the starting position); one
edit from a saved state clears the flag; undoing back to the marked position
restores it; undoing past a marked position clears it and redoing back to
that position restores it.  The `EditHistory` position bookkeeping is
modelled from the spec (EditHistory.py is absent from the source tree). -/
theorem C5_saved_flag {α : Type} :
    (∀ d : Doc α, docSaved d = true ↔
      d.history.undoStack.length = d.history.savedPos) ∧
    (∀ d : Doc α, (docMarkSaved d).history.savedPos = d.history.undoStack.length ∧
      docSaved (docMarkSaved d) = true) ∧
    (∀ (d : Doc α) (name : String) (s e : ℤ) (new : List α) ed d',
      docSaved d = true → docEdit d name s e new = .ok (ed, d') →
      docSaved d' = false) ∧
    (∀ (d : Doc α) (name : String) (s e : ℤ) (new : List α) ed d' e2 d2,
      docSaved d = true → docEdit d name s e new = .ok (ed, d') →
      docUndo d' = .ok (e2, d2) → docSaved d2 = true) ∧
    (∀ (d : Doc α) e2 d2, docUndo (docMarkSaved d) = .ok (e2, d2) →
      docSaved d2 = false) ∧
    (∀ (d : Doc α) e2 d2 e3 d3, docUndo (docMarkSaved d) = .ok (e2, d2) →
      docRedo d2 = .ok (e3, d3) → docSaved d3 = true) := by
  have hsv : ∀ d : Doc α, docSaved d = true ↔
      d.history.undoStack.length = d.history.savedPos := by
    intro d
    rw [docSaved, EditHistory.documentSaved]
    exact beq_iff_eq
  refine ⟨hsv, ?_, ?_, ?_, ?_, ?_⟩
  · intro d
    refine ⟨rfl, ?_⟩
    rw [hsv]
    rfl
  · intro d name s e new ed d' hs hed
    have hh := docEdit_history hed
    rw [hsv] at hs
    have hlen : d'.history.undoStack.length = d.history.undoStack.length + 1 := by
      rw [hh]
      simp
    have hsp : d'.history.savedPos = d.history.savedPos := by rw [hh]
    rw [docSaved, EditHistory.documentSaved]
    simp only [beq_eq_false_iff_ne, ne_eq]
    omega
  · intro d name s e new ed d' e2 d2 hs hed hun
    have hh := docEdit_history hed
    obtain ⟨E, hu1, hu2, hu3⟩ := docUndo_history hun
    rw [hsv] at hs
    have hlen1 : d'.history.undoStack.length = d2.history.undoStack.length + 1 := by
      rw [hu1]
      simp
    have hlen2 : d'.history.undoStack.length = d.history.undoStack.length + 1 := by
      rw [hh]
      simp
    have hsp : d2.history.savedPos = d.history.savedPos := by
      rw [hu3, hh]
    rw [hsv]
    omega
  · intro d e2 d2 hun
    obtain ⟨E, hu1, hu2, hu3⟩ := docUndo_history hun
    have hlen : (docMarkSaved d).history.undoStack.length =
        d2.history.undoStack.length + 1 := by
      rw [hu1]
      simp
    have hsp : d2.history.savedPos = (docMarkSaved d).history.savedPos := hu3
    have hm : (docMarkSaved d).history.savedPos = d.history.undoStack.length := rfl
    have hm2 : (docMarkSaved d).history.undoStack.length =
        d.history.undoStack.length := rfl
    rw [docSaved, EditHistory.documentSaved]
    simp only [beq_eq_false_iff_ne, ne_eq]
    omega
  · intro d e2 d2 e3 d3 hun hre
    obtain ⟨E, hu1, hu2, hu3⟩ := docUndo_history hun
    obtain ⟨hr1, hr2, hr3⟩ := docRedo_history hre
    have hlen : (docMarkSaved d).history.undoStack.length =
        d2.history.undoStack.length + 1 := by
      rw [hu1]
      simp
    have hlen3 : d3.history.undoStack.length = d2.history.undoStack.length + 1 := by
      rw [hr2]
      simp
    have hsp : d2.history.savedPos = (docMarkSaved d).history.savedPos := hu3
    have hsp3 : d3.history.savedPos = d2.history.savedPos := hr3
    have hm : (docMarkSaved d).history.savedPos = d.history.undoStack.length := rfl
    have hm2 : (docMarkSaved d).history.undoStack.length =
        d.history.undoStack.length := rfl
    rw [hsv]
    omega

/-- Witness for C2 at the specification's concrete example: replacing range
[1,3) of [0,1,2,3] with [10,11,12]. -/
theorem C2_edit_undo_redo_witness :
    ∃ e1 d1 e2 d2 e3 d3,
      docEdit (⟨[0, 1, 2, 3], ⟨[], [], 0⟩⟩ : Doc ℤ) ("Replace") 1 3 [10, 11, 12] =
        .ok (e1, d1) ∧
      d1.observations =
        ([0, 1, 2, 3] : List ℤ).take (1 : ℤ).toNat ++ [10, 11, 12] ++
          ([0, 1, 2, 3] : List ℤ).drop (3 : ℤ).toNat ∧
      docUndo d1 = .ok (e2, d2) ∧ d2.observations = [0, 1, 2, 3] ∧
      docRedo d2 = .ok (e3, d3) ∧
      d3.observations =
        ([0, 1, 2, 3] : List ℤ).take (1 : ℤ).toNat ++ [10, 11, 12] ++
          ([0, 1, 2, 3] : List ℤ).drop (3 : ℤ).toNat :=
  C2_edit_undo_redo ⟨[], [], 0⟩ ("Replace") [0, 1, 2, 3] [10, 11, 12] 1 3
    (by decide) (by decide) (by decide)

/-- Witness for C5: the saved-flag scenarios at a concrete three-record
document. -/
theorem C5_saved_flag_witness :
    docSaved (⟨[0, 9, 2], ⟨[⟨"E", 1, 2, [1], [9]⟩], [], 0⟩⟩ : Doc ℤ) = false ∧
    docSaved (⟨[0, 1, 2], ⟨[], [⟨"E", 1, 2, [1], [9]⟩], 0⟩⟩ : Doc ℤ) = true ∧
    docSaved (⟨[0, 1, 2], ⟨[], [⟨"E", 1, 2, [1], [9]⟩], 1⟩⟩ : Doc ℤ) = false ∧
    docSaved (⟨[0, 9, 2], ⟨[⟨"E", 1, 2, [1], [9]⟩], [], 1⟩⟩ : Doc ℤ) = true :=
  ⟨(@C5_saved_flag ℤ).2.2.1 ⟨[0, 1, 2], ⟨[], [], 0⟩⟩ ("E") 1 2 [9]
      ⟨"E", 1, 2, [1], [9]⟩ ⟨[0, 9, 2], ⟨[⟨"E", 1, 2, [1], [9]⟩], [], 0⟩⟩
      (by decide) (by decide),
    (@C5_saved_flag ℤ).2.2.2.1 ⟨[0, 1, 2], ⟨[], [], 0⟩⟩ ("E") 1 2 [9]
      ⟨"E", 1, 2, [1], [9]⟩ ⟨[0, 9, 2], ⟨[⟨"E", 1, 2, [1], [9]⟩], [], 0⟩⟩
      ⟨"E" ++ " Inverse", 1, 2, [9], [1]⟩ ⟨[0, 1, 2], ⟨[], [⟨"E", 1, 2, [1], [9]⟩], 0⟩⟩
      (by decide) (by decide) (by decide),
    (@C5_saved_flag ℤ).2.2.2.2.1 ⟨[0, 9, 2], ⟨[⟨"E", 1, 2, [1], [9]⟩], [], 0⟩⟩
      ⟨"E" ++ " Inverse", 1, 2, [9], [1]⟩
      ⟨[0, 1, 2], ⟨[], [⟨"E", 1, 2, [1], [9]⟩], 1⟩⟩ (by decide),
    (@C5_saved_flag ℤ).2.2.2.2.2 ⟨[0, 9, 2], ⟨[⟨"E", 1, 2, [1], [9]⟩], [], 0⟩⟩
      ⟨"E" ++ " Inverse", 1, 2, [9], [1]⟩
      ⟨[0, 1, 2], ⟨[], [⟨"E", 1, 2, [1], [9]⟩], 1⟩⟩
      ⟨"E", 1, 2, [1], [9]⟩ ⟨[0, 9, 2], ⟨[⟨"E", 1, 2, [1], [9]⟩], [], 1⟩⟩
      (by decide) (by decide)⟩

theorem docStep_trace {α : Type} (L : List ℕ) (d : Doc α) (op : DocOp α) :
    (docStep L d op).2.2 =
      (docStep L d op).2.1.flatMap
        (fun e => DocEvent.applied e :: notifyEditListeners L e) := by
  cases op with
  | edit name s e obs =>
      rw [docStep]
      cases h : docEdit d name s e obs with
      | ok p => cases p; simp
      | error m => simp
  | undo =>
      rw [docStep]
      cases h : docUndo d with
      | ok p => cases p; simp
      | error m => simp
  | redo =>
      rw [docStep]
      cases h : docRedo d with
      | ok p => cases p; simp
      | error m => simp

theorem docRun_trace {α : Type} (L : List ℕ) (d : Doc α) (ops : List (DocOp α)) :
    (docRun L d ops).2.2 =
      (docRun L d ops).2.1.flatMap
        (fun e => DocEvent.applied e :: notifyEditListeners L e) := by
  induction ops generalizing d with
  | nil => rfl
  | cons op ops ih =>
      rw [docRun]
      dsimp only
      rw [List.flatMap_append, ← ih (docStep L d op).1, ← docStep_trace L d op]

theorem filterMap_pick_nil {α : Type} {l : ℕ} {L : List ℕ} (e : DocEdit α)
    (h : l ∉ L) :
    L.filterMap (fun x => if x = l then some e else none) = [] := by
  induction L with
  | nil => rfl
  | cons a t ih =>
      rw [List.filterMap_cons]
      rw [if_neg (by intro hc; exact h (hc ▸ List.mem_cons_self a t))]
      exact ih (fun hm => h (List.mem_cons_of_mem a hm))

theorem filterMap_pick_single {α : Type} {l : ℕ} {L : List ℕ} (e : DocEdit α)
    (hmem : l ∈ L) (hnd : L.Nodup) :
    L.filterMap (fun x => if x = l then some e else none) = [e] := by
  induction L with
  | nil => exact absurd hmem (List.not_mem_nil l)
  | cons a t ih =>
      rw [List.filterMap_cons]
      by_cases ha : a = l
      · rw [if_pos ha]
        have hnt : l ∉ t := by
          rw [← ha]
          exact (List.nodup_cons.mp hnd).1
        rw [filterMap_pick_nil e hnt]
      · rw [if_neg ha]
        have hmt : l ∈ t := by
          cases List.mem_cons.mp hmem with
          | inl h => exact absurd h.symm ha
          | inr h => exact h
        exact ih hmt (List.nodup_cons.mp hnd).2

theorem notificationsFor_flatMap {α : Type} {l : ℕ} {L : List ℕ} (hmem : l ∈ L)
    (hnd : L.Nodup) (ce : List (DocEdit α)) :
    notificationsFor l
        (ce.flatMap (fun e => DocEvent.applied e :: notifyEditListeners L e)) = ce := by
  induction ce with
  | nil => rfl
  | cons e t ih =>
      rw [List.flatMap_cons, notificationsFor, List.filterMap_append, List.filterMap_cons]
      dsimp only
      rw [notifyEditListeners, List.filterMap_map]
      have : (fun ev : DocEvent α =>
          match ev with
          | .notified l' e => if l' = l then some e else none
          | .applied _ => none) ∘ (fun x => DocEvent.notified x e) =
          fun x => if x = l then some e else none := by
        funext x
        rfl
      rw [this, filterMap_pick_single e hmem hnd]
      rw [notificationsFor] at ih
      rw [ih]
      rfl

/-- Claim C9.  Listener notification is synchronous and ordered: over any
sequence of submitted operations, the emitted event trace is exactly, in
commit order, one application event per committed edit (including undo and
redo replays, and excluding failed operations, which raise before notifying)
followed by one notification per registered listener carrying that edit; in
particular each registered listener is notified exactly once per committed
edit, in commit order, and only after the edit is applied.  The Python
listener set is modelled as a duplicate-free list. -/
theorem C9_listener_notification {α : Type} (listeners : List ℕ)
    (hnd : listeners.Nodup) (d : Doc α) (ops : List (DocOp α)) :
    (docRun listeners d ops).2.2 =
      (docRun listeners d ops).2.1.flatMap
        (fun e => DocEvent.applied e :: notifyEditListeners listeners e) ∧
    ∀ l ∈ listeners, notificationsFor l (docRun listeners d ops).2.2 =
      (docRun listeners d ops).2.1 :=
  ⟨docRun_trace listeners d ops,
   fun l hl => by
     rw [docRun_trace]
     exact notificationsFor_flatMap hl hnd _⟩

/-- Witness for C9: two listeners and an edit-undo-redo operation sequence on
a concrete document. -/
theorem C9_listener_notification_witness :
    ((docRun [7, 8] (Doc.mk' [0, 1]) [DocOp.edit ("E") 0 1 [(5 : ℤ)], DocOp.undo,
        DocOp.redo]).2.2 =
      (docRun [7, 8] (Doc.mk' [0, 1]) [DocOp.edit ("E") 0 1 [(5 : ℤ)], DocOp.undo,
        DocOp.redo]).2.1.flatMap
        (fun e => DocEvent.applied e :: notifyEditListeners [7, 8] e)) ∧
    notificationsFor 7
        (docRun [7, 8] (Doc.mk' [0, 1]) [DocOp.edit ("E") 0 1 [(5 : ℤ)], DocOp.undo,
          DocOp.redo]).2.2 =
      (docRun [7, 8] (Doc.mk' [0, 1]) [DocOp.edit ("E") 0 1 [(5 : ℤ)], DocOp.undo,
        DocOp.redo]).2.1 :=
  ⟨(C9_listener_notification [7, 8] (by decide) (Doc.mk' [0, 1])
      [DocOp.edit ("E") 0 1 [(5 : ℤ)], DocOp.undo, DocOp.redo]).1,
   (C9_listener_notification [7, 8] (by decide) (Doc.mk' [0, 1])
      [DocOp.edit ("E") 0 1 [(5 : ℤ)], DocOp.undo, DocOp.redo]).2 7 (by decide)⟩

theorem dictLookup_cons {β : Type} (p : String × β) (rest : List (String × β)) (k : String) :
    dictLookup (p :: rest) k = if p.1 = k then some p.2 else dictLookup rest k := by
  rw [dictLookup]
  by_cases h : p.1 = k
  · rw [List.find?_cons_of_pos _ (by simpa using h), if_pos h]
    rfl
  · rw [List.find?_cons_of_neg _ (by simpa using h), if_neg h]
    rfl

theorem dictLookup_dictInsert_self {β : Type} (m : List (String × β)) (k : String) (v : β) :
    dictLookup (dictInsert m k v) k = some v := by
  induction m with
  | nil =>
      rw [dictInsert, dictLookup_cons]
      simp
  | cons p rest ih =>
      rw [dictInsert]
      by_cases h : p.1 = k
      · rw [if_pos h, dictLookup_cons]
        simp
      · rw [if_neg h, dictLookup_cons, if_neg h]
        exact ih

theorem dictLookup_dictInsert_ne {β : Type} (m : List (String × β)) {k k' : String}
    (v : β) (h : k' ≠ k) : dictLookup (dictInsert m k v) k' = dictLookup m k' := by
  induction m with
  | nil =>
      rw [dictInsert, dictLookup_cons, if_neg (by simpa using fun hc : k = k' => h hc.symm)]
  | cons p rest ih =>
      rw [dictInsert]
      by_cases hp : p.1 = k
      · rw [if_pos hp, dictLookup_cons, dictLookup_cons,
          if_neg (by simpa using fun hc : k = k' => h hc.symm), hp,
          if_neg (by simpa using fun hc : k = k' => h hc.symm)]
      · rw [if_neg hp, dictLookup_cons, dictLookup_cons]
        by_cases hq : p.1 = k'
        · rw [if_pos hq, if_pos hq]
        · rw [if_neg hq, if_neg hq]
          exact ih

theorem addKeyToSets_mem {sets : List (ℕ × Finset String)} {i0 : ℕ} {k0 : String}
    {i : ℕ} {ks : Finset String} (h : (i, ks) ∈ addKeyToSets sets i0 k0) :
    (∃ ks0, (i, ks0) ∈ sets ∧ (ks = ks0 ∨ ks = insert k0 ks0)) ∨ (i = i0 ∧ ks = {k0}) := by
  induction sets with
  | nil =>
      rw [addKeyToSets] at h
      simp at h
      exact Or.inr h
  | cons p rest ih =>
      obtain ⟨j, kj⟩ := p
      rw [addKeyToSets] at h
      by_cases hj : j = i0
      · rw [if_pos hj] at h
        rcases List.mem_cons.mp h with hh | ht
        · have h1 : i = j ∧ ks = insert k0 kj := by
            constructor
            · exact (Prod.mk.injEq _ _ _ _ ▸ hh).1
            · exact (Prod.mk.injEq _ _ _ _ ▸ hh).2
          refine Or.inl ⟨kj, ?_, Or.inr h1.2⟩
          rw [h1.1]
          exact List.mem_cons_self _ _
        · exact Or.inl ⟨ks, List.mem_cons_of_mem _ ht, Or.inl rfl⟩
      · rw [if_neg hj] at h
        rcases List.mem_cons.mp h with hh | ht
        · have h1 : i = j ∧ ks = kj := by
            constructor
            · exact (Prod.mk.injEq _ _ _ _ ▸ hh).1
            · exact (Prod.mk.injEq _ _ _ _ ▸ hh).2
          refine Or.inl ⟨kj, ?_, Or.inl h1.2⟩
          rw [h1.1]
          exact List.mem_cons_self _ _
        · rcases ih ht with ⟨ks0, hm, hor⟩ | hr
          · exact Or.inl ⟨ks0, List.mem_cons_of_mem _ hm, hor⟩
          · exact Or.inr hr

theorem tables_coverage {π : Type} :
    ∀ (fs : List (ObsFormatD π)) (acc : List (ℕ × Finset String) × List (String × ObsFormatD π)),
      (∀ i ks, (i, ks) ∈ acc.1 → ∀ k ∈ ks,
        ∃ f, dictLookup acc.2 k = some f ∧ f.keyText = k) →
      ∀ i ks,
        (i, ks) ∈ (fs.foldl
          (fun a f => (addKeyToSets a.1 f.keyIndex f.keyText, dictInsert a.2 f.keyText f))
          acc).1 →
        ∀ k ∈ ks,
          ∃ f, dictLookup (fs.foldl
            (fun a f => (addKeyToSets a.1 f.keyIndex f.keyText, dictInsert a.2 f.keyText f))
            acc).2 k = some f ∧ f.keyText = k := by
  intro fs
  induction fs with
  | nil => intro acc h; simpa using h
  | cons f t ih =>
      intro acc h
      rw [List.foldl_cons]
      apply ih
      intro i ks hmem k hk
      by_cases hkf : k = f.keyText
      · subst hkf
        exact ⟨f, dictLookup_dictInsert_self _ _ _, rfl⟩
      · rcases addKeyToSets_mem hmem with ⟨ks0, hm0, hor⟩ | ⟨hi, hks⟩
        · have hk0 : k ∈ ks0 := by
            rcases hor with rfl | rfl
            · exact hk
            · rcases Finset.mem_insert.mp hk with h1 | h1
              · exact absurd h1 hkf
              · exact h1
          obtain ⟨g, hl, ht⟩ := h i ks0 hm0 k hk0
          refine ⟨g, ?_, ht⟩
          rw [dictLookup_dictInsert_ne _ _ hkf]
          exact hl
        · subst hks
          exact absurd (Finset.mem_singleton.mp hk) hkf

theorem mkSimpleDocFormat_coverage {π : Type} (fs : List (ObsFormatD π)) :
    ∀ i ks, (i, ks) ∈ (mkSimpleDocFormat fs).keySets → ∀ k ∈ ks,
      ∃ f, dictLookup (mkSimpleDocFormat fs).obsFormatsByKey k = some f ∧ f.keyText = k := by
  intro i ks hmem k hk
  simp only [mkSimpleDocFormat] at hmem ⊢
  have hmem' := (List.mergeSort_perm _ _).mem_iff.mp hmem
  exact tables_coverage fs ([], []) (by intro i ks h; simp at h) i ks hmem' k hk

theorem mkSimpleDocFormat_sorted {π : Type} (fs : List (ObsFormatD π)) :
    (mkSimpleDocFormat fs).keySets.Pairwise (fun a b => a.2.card ≤ b.2.card) := by
  simp only [mkSimpleDocFormat]
  have htrans : ∀ (a b c : ℕ × Finset String),
      decide (a.2.card ≤ b.2.card) = true → decide (b.2.card ≤ c.2.card) = true →
      decide (a.2.card ≤ c.2.card) = true := by
    intro a b c hab hbc
    simp only [decide_eq_true_eq] at hab hbc ⊢
    exact le_trans hab hbc
  have htotal : ∀ (a b : ℕ × Finset String),
      (decide (a.2.card ≤ b.2.card) || decide (b.2.card ≤ a.2.card)) = true := by
    intro a b
    simp only [Bool.or_eq_true, decide_eq_true_eq]
    exact le_total _ _
  have h := List.sorted_mergeSort htrans htotal
    ((fs.foldl
      (fun a f => (addKeyToSets a.1 f.keyIndex f.keyText, dictInsert a.2 f.keyText f))
      ([], [])).1)
  exact h.imp (fun hab => of_decide_eq_true hab)

theorem dispatchKeySets_none {π : Type} (byKey : List (String × ObsFormatD π))
    (tokens : List String) :
    ∀ sets : List (ℕ × Finset String),
      sets.find? (fun p =>
        match tokens[p.1]? with
        | some tok => decide (tok ∈ p.2)
        | none => false) = none →
      dispatchKeySets byKey tokens sets = .error ("Observation type could not be determined.") := by
  intro sets
  induction sets with
  | nil => intro _; rfl
  | cons p rest ih =>
      obtain ⟨i, ks⟩ := p
      intro h
      rw [List.find?_cons] at h
      rw [dispatchKeySets]
      cases ht : tokens[i]? with
      | none =>
          simp only [ht] at h
          exact ih h
      | some tok =>
          simp only [ht] at h
          show (if tok ∈ ks then
              match dictLookup byKey tok with
              | some f => Except.ok (f.runParse tokens)
              | none => Except.error ("KeyError")
            else dispatchKeySets byKey tokens rest) =
            Except.error ("Observation type could not be determined.")
          by_cases hm : tok ∈ ks
          · simp only [decide_eq_true hm] at h
            exact absurd h (by simp)
          · simp only [decide_eq_false hm] at h
            rw [if_neg hm]
            exact ih h

theorem dispatchKeySets_found {π : Type} (byKey : List (String × ObsFormatD π))
    (tokens : List String) :
    ∀ (sets : List (ℕ × Finset String))
      (_ : ∀ i ks, (i, ks) ∈ sets → ∀ k ∈ ks,
        ∃ f, dictLookup byKey k = some f ∧ f.keyText = k)
      (i : ℕ) (ks : Finset String),
      sets.find? (fun p =>
        match tokens[p.1]? with
        | some tok => decide (tok ∈ p.2)
        | none => false) = some (i, ks) →
      ∃ tok f, tokens[i]? = some tok ∧ tok ∈ ks ∧
        dictLookup byKey tok = some f ∧ f.keyText = tok ∧
        dispatchKeySets byKey tokens sets = .ok (f.runParse tokens) := by
  intro sets
  induction sets with
  | nil => intro _ i ks h; exact absurd h (by simp)
  | cons p rest ih =>
      obtain ⟨j, kj⟩ := p
      intro hcov i ks h
      rw [List.find?_cons] at h
      rw [dispatchKeySets]
      cases ht : tokens[j]? with
      | none =>
          simp only [ht] at h
          exact ih (fun i ks hm => hcov i ks (List.mem_cons_of_mem _ hm)) i ks h
      | some tok =>
          simp only [ht] at h
          show ∃ tok' f, tokens[i]? = some tok' ∧ tok' ∈ ks ∧
            dictLookup byKey tok' = some f ∧ f.keyText = tok' ∧
            (if tok ∈ kj then
              match dictLookup byKey tok with
              | some f => Except.ok (f.runParse tokens)
              | none => Except.error ("KeyError")
            else dispatchKeySets byKey tokens rest) = .ok (f.runParse tokens)
          by_cases hm : tok ∈ kj
          · simp only [decide_eq_true hm] at h
            have hinj := Option.some.inj h
            have hij : j = i ∧ kj = ks := (Prod.mk.injEq _ _ _ _).mp hinj
            obtain ⟨g, hl, hgt⟩ := hcov j kj (List.mem_cons_self _ _) tok hm
            refine ⟨tok, g, ?_, ?_, hl, hgt, ?_⟩
            · rw [← hij.1]; exact ht
            · rw [← hij.2]; exact hm
            · rw [if_pos hm, hl]
          · simp only [decide_eq_false hm] at h
            rw [if_neg hm]
            exact ih (fun i ks hmm => hcov i ks (List.mem_cons_of_mem _ hmm)) i ks h

/-- C4: classification tries the grouped key token-positions in order of
increasing key-set cardinality (the sorted dispatch table is pairwise
ordered by cardinality); the first group whose key set contains the token at
the group's position selects the record format registered for that token,
and parsing runs that format on the line; if no group's key set contains the
corresponding token, parsing fails with the error stating that the record
type could not be determined. -/
theorem C4_dispatch {π : Type} (fs : List (ObsFormatD π)) (tokens : List String) :
    (mkSimpleDocFormat fs).keySets.Pairwise (fun a b => a.2.card ≤ b.2.card) ∧
    (firstMatchingKeySet (mkSimpleDocFormat fs) tokens = none →
      parseObsD (mkSimpleDocFormat fs) tokens =
        .error ("Observation type could not be determined.")) ∧
    (∀ i ks, firstMatchingKeySet (mkSimpleDocFormat fs) tokens = some (i, ks) →
      ∃ tok f, tokens[i]? = some tok ∧ tok ∈ ks ∧
        dictLookup (mkSimpleDocFormat fs).obsFormatsByKey tok = some f ∧
        f.keyText = tok ∧
        parseObsD (mkSimpleDocFormat fs) tokens = .ok (f.runParse tokens)) := by
  refine ⟨mkSimpleDocFormat_sorted fs, ?_, ?_⟩
  · intro h
    exact dispatchKeySets_none _ tokens _ h
  · intro i ks h
    exact dispatchKeySets_found _ tokens _ (mkSimpleDocFormat_coverage fs) i ks h

theorem C4_dispatch_witness :
    firstMatchingKeySet (mkSimpleDocFormat [ObsFormatD.mk 0 "A" List.length]) ["A", "x"] =
      some (0, {"A"}) ∧
    parseObsD (mkSimpleDocFormat [ObsFormatD.mk 0 "A" List.length]) ["A", "x"] = .ok 2 ∧
    parseObsD (mkSimpleDocFormat [ObsFormatD.mk 0 "B" List.length]) ["A", "x"] =
      .error ("Observation type could not be determined.") := by
  have hfind : firstMatchingKeySet (mkSimpleDocFormat [ObsFormatD.mk 0 "A" List.length])
      ["A", "x"] = some (0, {"A"}) := by
    simp only [firstMatchingKeySet, mkSimpleDocFormat, List.foldl_cons, List.foldl_nil,
      addKeyToSets, dictInsert, List.mergeSort_singleton]
    decide
  have hnone : firstMatchingKeySet (mkSimpleDocFormat [ObsFormatD.mk 0 "B" List.length])
      ["A", "x"] = none := by
    simp only [firstMatchingKeySet, mkSimpleDocFormat, List.foldl_cons, List.foldl_nil,
      addKeyToSets, dictInsert, List.mergeSort_singleton]
    decide
  refine ⟨hfind, ?_, ?_⟩
  · obtain ⟨tok, f, ht, hm, hl, hk, hp⟩ :=
      (C4_dispatch [ObsFormatD.mk 0 "A" List.length] ["A", "x"]).2.2 0 {"A"} hfind
    have h0 : (some "A" : Option String) = some tok := ht
    have htok : tok = "A" := (Option.some.inj h0).symm
    subst htok
    have hl2 : some f = some (ObsFormatD.mk 0 "A" (fun ts : List String => ts.length)) := by
      rw [← hl]
      rfl
    have hf := Option.some.inj hl2
    rw [hf] at hp
    exact hp
  · exact (C4_dispatch [ObsFormatD.mk 0 "B" List.length] ["A", "x"]).2.1 hnone

theorem pythonRound_nonneg {q : ℚ} (h : 0 ≤ q) : 0 ≤ pythonRound q := by
  simp only [pythonRound]
  have h0 : (0 : ℤ) ≤ ⌊q⌋ := by
    rw [Int.le_floor]
    exact_mod_cast h
  split
  · exact h0
  · split
    · omega
    · split
      · exact h0
      · omega

theorem pythonRound_nearest (q : ℚ) : |(pythonRound q : ℚ) - q| ≤ 1 / 2 := by
  simp only [pythonRound]
  have hfl : (⌊q⌋ : ℚ) ≤ q := Int.floor_le q
  have hfu : q < ⌊q⌋ + 1 := Int.lt_floor_add_one q
  by_cases h1 : q - (⌊q⌋ : ℚ) < 1 / 2
  · rw [if_pos h1, abs_le]
    constructor <;> linarith
  · rw [if_neg h1]
    by_cases h2 : 1 / 2 < q - (⌊q⌋ : ℚ)
    · rw [if_pos h2]
      push_cast
      rw [abs_le]
      constructor <;> linarith
    · rw [if_neg h2]
      have heq : q - (⌊q⌋ : ℚ) = 1 / 2 := le_antisymm (not_lt.mp h2) (not_lt.mp h1)
      by_cases h3 : ⌊q⌋ % 2 = 0
      · rw [if_pos h3, abs_le]
        constructor <;> linarith
      · rw [if_neg h3]
        push_cast
        rw [abs_le]
        constructor <;> linarith

/-- C6: for every non-null degree value, angle formatting emits sign,
degrees, minutes and seconds with the total seconds rounded to the nearest
integer (ties to even, within one half second) and correct carry, so the
minutes and seconds fields are always at most 59 and never 60; in
particular 0.01666666666 degrees formats as `0:01:00`, not `0:00:60`. -/
theorem C6_angle_no_sixty :
    (∀ (v : ℚ) (e : Bool), ∃ d m s : ℕ, m ≤ 59 ∧ s ≤ 59 ∧
      angleFormat (some v) e = String.mk
        ((if v < 0 then ['-'] else []) ++
          natDecimal d ++ ':' :: pad2 m ++ ':' :: pad2 s) ∧
      (d * 3600 + m * 60 + s : ℤ) = pythonRound (3600 * abs v) ∧
      abs ((pythonRound (3600 * abs v) : ℚ) - 3600 * abs v) ≤ 1 / 2) ∧
    angleFormat (some (1666666666 / 100000000000)) false = "0:01:00" ∧
    angleFormat (some (1666666666 / 100000000000)) false ≠ "0:00:60" := by
  have hmain : ∀ (v : ℚ) (e : Bool), ∃ d m s : ℕ, m ≤ 59 ∧ s ≤ 59 ∧
      angleFormat (some v) e = String.mk
        ((if v < 0 then ['-'] else []) ++
          natDecimal d ++ ':' :: pad2 m ++ ':' :: pad2 s) ∧
      (d * 3600 + m * 60 + s : ℤ) = pythonRound (3600 * abs v) ∧
      abs ((pythonRound (3600 * abs v) : ℚ) - 3600 * abs v) ≤ 1 / 2 := by
    intro v e
    have hw : (if v < 0 then -v else v) = abs v := by
      by_cases hv : v < 0
      · rw [if_pos hv, abs_of_neg hv]
      · rw [if_neg hv, abs_of_nonneg (not_lt.mp hv)]
    refine ⟨(pythonRound (3600 * abs v)).toNat / 60 / 60,
      (pythonRound (3600 * abs v)).toNat / 60 % 60,
      (pythonRound (3600 * abs v)).toNat % 60, by omega, by omega, ?_, ?_,
      pythonRound_nearest _⟩
    · simp only [angleFormat, hw]
    · have hnn : 0 ≤ pythonRound (3600 * abs v) :=
        pythonRound_nonneg (by positivity)
      have hts : ((pythonRound (3600 * abs v)).toNat : ℤ) = pythonRound (3600 * abs v) :=
        Int.toNat_of_nonneg hnn
      omega
  have hneg : ¬((1666666666 / 100000000000 : ℚ) < 0) := by norm_num
  have hr : pythonRound (3600 * (1666666666 / 100000000000 : ℚ)) = 60 := by
    simp only [pythonRound]
    norm_num
  have hts60 : (pythonRound (3600 * (1666666666 / 100000000000 : ℚ))).toNat = 60 := by
    rw [hr]
    rfl
  have hex : angleFormat (some (1666666666 / 100000000000)) false = "0:01:00" := by
    simp only [angleFormat, if_neg hneg, hts60]
    decide
  refine ⟨hmain, hex, ?_⟩
  rw [hex]
  decide

theorem dateParse_tokens (mo dy yr : List Char) (e : Bool)
    (h1 : 1 ≤ mo.length) (h2 : mo.length ≤ 2) (h3 : mo.all Char.isDigit = true)
    (h4 : 1 ≤ dy.length) (h5 : dy.length ≤ 2) (h6 : dy.all Char.isDigit = true)
    (h7 : yr.length = 2) (h8 : yr.all Char.isDigit = true) :
    dateParse (String.mk (mo ++ '/' :: dy ++ '/' :: yr)) e =
      (if natValL mo = 0 ∨ natValL mo > 12 then
        .error ("Month must be in range [1, 12].")
      else if natValL dy = 0 ∨ natValL dy >
          daysInMonth (natValL yr + (if natValL yr < 70 then 2000 else 1900)) (natValL mo) then
        .error ("Day must be in range [1, days in month].")
      else .ok (some ⟨natValL yr + (if natValL yr < 70 then 2000 else 1900),
        natValL mo, natValL dy⟩)) := by
  have hslash : '/' ∈ (mo ++ '/' :: dy ++ '/' :: yr) := by simp
  have hne1 : String.mk (mo ++ '/' :: dy ++ '/' :: yr) ≠ "" := by
    intro h
    rw [String.ext_iff, data_mk] at h
    rw [h] at hslash
    exact absurd hslash (by simp)
  have hne2 : String.mk (mo ++ '/' :: dy ++ '/' :: yr) ≠ NONE_TOKEN := by
    intro h
    rw [String.ext_iff, data_mk] at h
    rw [h] at hslash
    exact absurd hslash (by decide)
  have hg : ¬(((e && (String.mk (mo ++ '/' :: dy ++ '/' :: yr) = EDITING_NONE : Bool)) ||
      (!e && (String.mk (mo ++ '/' :: dy ++ '/' :: yr) = NONE_TOKEN : Bool))) = true) := by
    simp only [Bool.or_eq_true, Bool.and_eq_true, decide_eq_true_eq]
    rintro (⟨_, h⟩ | ⟨_, h⟩)
    · exact hne1 h
    · exact hne2 h
  have hmo : '/' ∉ mo := not_mem_of_all_isDigit h3 (by decide)
  have hdy : '/' ∉ dy := not_mem_of_all_isDigit h6 (by decide)
  have hyr : '/' ∉ yr := not_mem_of_all_isDigit h8 (by decide)
  rw [dateParse, if_neg hg, data_mk, List.append_assoc, List.cons_append,
    splitCh_three hmo hdy hyr]
  have hcond : (1 ≤ mo.length && mo.length ≤ 2 && mo.all Char.isDigit &&
      (1 ≤ dy.length) && dy.length ≤ 2 && dy.all Char.isDigit &&
      yr.length = 2 && yr.all Char.isDigit) = true := by
    simp only [Bool.and_eq_true, decide_eq_true_eq]
    exact ⟨⟨⟨⟨⟨⟨⟨h1, h2⟩, h3⟩, h4⟩, h5⟩, h6⟩, h7⟩, h8⟩
  simp only [hcond, if_true]
  by_cases hm : natValL mo = 0 ∨ natValL mo > 12
  · have hmb : (natValL mo = 0 || natValL mo > 12) = true := by
      simp only [Bool.or_eq_true, decide_eq_true_eq]
      exact hm
    rw [if_pos hmb, if_pos hm]
  · have hmb : ¬((natValL mo = 0 || natValL mo > 12) = true) := by
      simp only [Bool.or_eq_true, decide_eq_true_eq]
      exact hm
    rw [if_neg hmb, if_neg hm]
    by_cases hd : natValL dy = 0 ∨ natValL dy >
        daysInMonth (natValL yr + (if natValL yr < 70 then 2000 else 1900)) (natValL mo)
    · have hdb : (natValL dy = 0 || natValL dy >
          daysInMonth (natValL yr + (if natValL yr < 70 then 2000 else 1900))
            (natValL mo)) = true := by
        simp only [Bool.or_eq_true, decide_eq_true_eq]
        exact hd
      rw [if_pos hdb, if_pos hd]
    · have hdb : ¬((natValL dy = 0 || natValL dy >
          daysInMonth (natValL yr + (if natValL yr < 70 then 2000 else 1900))
            (natValL mo)) = true) := by
        simp only [Bool.or_eq_true, decide_eq_true_eq]
        exact hd
      rw [if_neg hdb, if_neg hd]

/-- C7: date parsing resolves a two-digit year with the 1970-2069 pivot
(years below 70 go to the 2000s, the rest to the 1900s) and accepts the
month/day pair exactly when the month is in [1,12] and the day is in
[1, days-in-month] for the resolved year and month, leap-year aware; in
particular "1/2/70" parses to 1970-01-02, "12/31/69" to 2069-12-31,
"2/29/12" to 2012-02-29, and "2/30/12" is rejected with the day-range
error. -/
theorem C7_date_pivot :
    (∀ (mo dy yr : List Char) (e : Bool),
      1 ≤ mo.length → mo.length ≤ 2 → mo.all Char.isDigit = true →
      1 ≤ dy.length → dy.length ≤ 2 → dy.all Char.isDigit = true →
      yr.length = 2 → yr.all Char.isDigit = true →
      dateParse (String.mk (mo ++ '/' :: dy ++ '/' :: yr)) e =
        (if natValL mo = 0 ∨ natValL mo > 12 then
          .error ("Month must be in range [1, 12].")
        else if natValL dy = 0 ∨ natValL dy >
            daysInMonth (natValL yr + (if natValL yr < 70 then 2000 else 1900))
              (natValL mo) then
          .error ("Day must be in range [1, days in month].")
        else .ok (some ⟨natValL yr + (if natValL yr < 70 then 2000 else 1900),
          natValL mo, natValL dy⟩))) ∧
    dateParse "1/2/70" false = .ok (some ⟨1970, 1, 2⟩) ∧
    dateParse "12/31/69" false = .ok (some ⟨2069, 12, 31⟩) ∧
    dateParse "2/29/12" false = .ok (some ⟨2012, 2, 29⟩) ∧
    dateParse "2/30/12" false = .error ("Day must be in range [1, days in month].") := by
  refine ⟨?_, by decide, by decide, by decide, by decide⟩
  intro mo dy yr e h1 h2 h3 h4 h5 h6 h7 h8
  exact dateParse_tokens mo dy yr e h1 h2 h3 h4 h5 h6 h7 h8

theorem C7_date_pivot_witness :
    dateParse (String.mk (['3'] ++ '/' :: ['1', '5'] ++ '/' :: ['7', '0'])) true =
      .ok (some ⟨1970, 3, 15⟩) := by
  have h := C7_date_pivot.1 ['3'] ['1', '5'] ['7', '0'] true (by decide) (by decide)
    (by decide) (by decide) (by decide) (by decide) (by decide) (by decide)
  rw [h]
  decide

theorem dictLookup_nil {β : Type} (k : String) : dictLookup ([] : List (String × β)) k = none := rfl

theorem dictLookup_eq_none_of_not_mem {β : Type} {l : List (String × β)} {n : String}
    (h : n ∉ l.map Prod.fst) : dictLookup l n = none := by
  induction l with
  | nil => rfl
  | cons p rest ih =>
      rw [dictLookup_cons]
      rw [List.map_cons, List.mem_cons] at h
      push_neg at h
      rw [if_neg (fun hh => h.1 hh.symm)]
      exact ih h.2

theorem dictLookup_append {β : Type} (l₁ l₂ : List (String × β)) (n : String) :
    dictLookup (l₁ ++ l₂) n = (dictLookup l₁ n).or (dictLookup l₂ n) := by
  induction l₁ with
  | nil => rfl
  | cons p rest ih =>
      rw [List.cons_append, dictLookup_cons, dictLookup_cons]
      by_cases h : p.1 = n
      · rw [if_pos h, if_pos h]
        rfl
      · rw [if_neg h, if_neg h]
        exact ih

theorem dictLookup_single {β : Type} (p : String × β) (n : String) :
    dictLookup [p] n = if p.1 = n then some p.2 else none := by
  rw [dictLookup_cons, dictLookup_nil]

theorem dictLookup_reverse {β : Type} {l : List (String × β)}
    (hnd : (l.map Prod.fst).Nodup) (n : String) :
    dictLookup l.reverse n = dictLookup l n := by
  induction l with
  | nil => rfl
  | cons p rest ih =>
      rw [List.map_cons, List.nodup_cons] at hnd
      rw [List.reverse_cons, dictLookup_append, dictLookup_single, dictLookup_cons]
      by_cases h : p.1 = n
      · rw [if_pos h, if_pos h]
        have hnone : dictLookup rest.reverse n = none := by
          apply dictLookup_eq_none_of_not_mem
          rw [List.map_reverse, List.mem_reverse]
          rw [← h]
          exact hnd.1
        rw [hnone]
        rfl
      · rw [if_neg h, if_neg h, ih hnd.2]
        exact Option.or_none

theorem dictLookup_dictUpdateMany {β : Type} (kvs m : List (String × β)) (n : String) :
    dictLookup (dictUpdateMany m kvs) n = (dictLookup kvs.reverse n).or (dictLookup m n) := by
  induction kvs generalizing m with
  | nil => rfl
  | cons kv rest ih =>
      simp only [dictUpdateMany] at ih ⊢
      rw [List.foldl_cons, ih, List.reverse_cons, dictLookup_append, dictLookup_single]
      by_cases h : kv.1 = n
      · rw [if_pos h]
        have hins : dictLookup (dictInsert m kv.1 kv.2) n = some kv.2 := by
          rw [h]
          exact dictLookup_dictInsert_self _ _ _
        rw [hins]
        cases dictLookup rest.reverse n <;> rfl
      · rw [if_neg h]
        have hins : dictLookup (dictInsert m kv.1 kv.2) n = dictLookup m n :=
          dictLookup_dictInsert_ne _ _ (fun hh => h hh.symm)
        rw [hins]
        cases dictLookup rest.reverse n <;> rfl

theorem accumulateParentFields_cons {β : Type} (p : List (String × β))
    (rest : List (List (String × β))) :
    accumulateParentFields (p :: rest) =
      dictUpdateMany (accumulateParentFields rest) p := by
  simp only [accumulateParentFields, List.reverse_cons, List.foldl_append, List.foldl_cons,
    List.foldl_nil]

theorem dictLookup_accumulateParentFields {β : Type} {parents : List (List (String × β))}
    (hnd : ∀ p ∈ parents, (p.map Prod.fst).Nodup) (n : String) :
    dictLookup (accumulateParentFields parents) n = firstDecl parents n := by
  induction parents with
  | nil => rfl
  | cons p rest ih =>
      rw [accumulateParentFields_cons, dictLookup_dictUpdateMany,
        dictLookup_reverse (hnd p (List.mem_cons_self _ _)),
        ih (fun q hq => hnd q (List.mem_cons_of_mem _ hq))]
      rfl

theorem mem_keys_dictInsert {β : Type} (m : List (String × β)) (k n : String) (v : β) :
    n ∈ (dictInsert m k v).map Prod.fst ↔ n = k ∨ n ∈ m.map Prod.fst := by
  induction m with
  | nil =>
      simp [dictInsert]
  | cons p rest ih =>
      rw [dictInsert]
      by_cases h : p.1 = k
      · rw [if_pos h]
        simp only [List.map_cons, List.mem_cons]
        rw [h]
        tauto
      · rw [if_neg h]
        simp only [List.map_cons, List.mem_cons]
        rw [ih]
        tauto

theorem keys_nodup_dictInsert {β : Type} {m : List (String × β)}
    (hnd : (m.map Prod.fst).Nodup) (k : String) (v : β) :
    ((dictInsert m k v).map Prod.fst).Nodup := by
  induction m with
  | nil => simp [dictInsert]
  | cons p rest ih =>
      rw [List.map_cons, List.nodup_cons] at hnd
      rw [dictInsert]
      by_cases h : p.1 = k
      · rw [if_pos h]
        rw [List.map_cons, List.nodup_cons]
        refine ⟨?_, hnd.2⟩
        rw [← h]
        exact hnd.1
      · rw [if_neg h]
        rw [List.map_cons, List.nodup_cons]
        refine ⟨?_, ih hnd.2⟩
        rw [mem_keys_dictInsert]
        rintro (hh | hh)
        · exact h hh
        · exact hnd.1 hh

theorem mem_keys_dictUpdateMany {β : Type} (kvs m : List (String × β)) (n : String) :
    n ∈ (dictUpdateMany m kvs).map Prod.fst ↔
      n ∈ m.map Prod.fst ∨ n ∈ kvs.map Prod.fst := by
  induction kvs generalizing m with
  | nil => simp [dictUpdateMany]
  | cons kv rest ih =>
      simp only [dictUpdateMany, List.foldl_cons] at ih ⊢
      rw [ih, mem_keys_dictInsert]
      simp only [List.map_cons, List.mem_cons]
      tauto

theorem keys_nodup_dictUpdateMany {β : Type} (kvs : List (String × β))
    {m : List (String × β)} (hnd : (m.map Prod.fst).Nodup) :
    ((dictUpdateMany m kvs).map Prod.fst).Nodup := by
  induction kvs generalizing m with
  | nil => exact hnd
  | cons kv rest ih =>
      simp only [dictUpdateMany, List.foldl_cons] at ih ⊢
      exact ih (keys_nodup_dictInsert hnd _ _)

theorem mem_keys_accumulateParentFields {β : Type} (parents : List (List (String × β)))
    (n : String) :
    n ∈ (accumulateParentFields parents).map Prod.fst ↔
      ∃ p ∈ parents, n ∈ p.map Prod.fst := by
  induction parents with
  | nil => simp [accumulateParentFields]
  | cons p rest ih =>
      rw [accumulateParentFields_cons, mem_keys_dictUpdateMany, ih]
      simp only [List.mem_cons]
      constructor
      · rintro (⟨q, hq, hn⟩ | hn)
        · exact ⟨q, Or.inr hq, hn⟩
        · exact ⟨p, Or.inl rfl, hn⟩
      · rintro ⟨q, hq | hq, hn⟩
        · right
          rw [hq] at hn
          exact hn
        · exact Or.inl ⟨q, hq, hn⟩

theorem keys_nodup_accumulateParentFields {β : Type} (parents : List (List (String × β))) :
    ((accumulateParentFields parents).map Prod.fst).Nodup := by
  induction parents with
  | nil => simp [accumulateParentFields]
  | cons p rest ih =>
      rw [accumulateParentFields_cons]
      exact keys_nodup_dictUpdateMany _ ih

theorem isSome_dictLookup_of_mem_keys {β : Type} {l : List (String × β)} {n : String}
    (h : n ∈ l.map Prod.fst) : ∃ v, dictLookup l n = some v := by
  induction l with
  | nil => simp at h
  | cons p rest ih =>
      rw [dictLookup_cons]
      by_cases hp : p.1 = n
      · exact ⟨p.2, by rw [if_pos hp]⟩
      · rw [if_neg hp]
        apply ih
        rw [List.map_cons, List.mem_cons] at h
        rcases h with h | h
        · exact absurd h.symm hp
        · exact h

theorem dictLookup_filterMap_lookup {β : Type} (g : String → Option β) (names : List String)
    (n₀ : String) :
    dictLookup (names.filterMap (fun n => (g n).map (fun v => (n, v)))) n₀ =
      if n₀ ∈ names then g n₀ else none := by
  induction names with
  | nil => simp [dictLookup_nil]
  | cons n names ih =>
      rw [List.filterMap_cons]
      cases hg : g n with
      | none =>
          simp only [hg, Option.map_none']
          rw [ih]
          by_cases he : n₀ = n
          · subst he
            by_cases hm : n₀ ∈ names
            · rw [if_pos hm, if_pos (List.mem_cons_self _ _)]
            · rw [if_neg hm, if_pos (List.mem_cons_self _ _), hg]
          · by_cases hm : n₀ ∈ names
            · rw [if_pos hm, if_pos (List.mem_cons_of_mem _ hm)]
            · rw [if_neg hm, if_neg (by
                rw [List.mem_cons]
                rintro (hh | hh)
                · exact he hh
                · exact hm hh)]
      | some v =>
          simp only [hg, Option.map_some']
          rw [dictLookup_cons]
          by_cases he : n = n₀
          · rw [if_pos he, if_pos (by rw [← he]; exact List.mem_cons_self _ _), ← he, hg]
          · rw [if_neg he, ih]
            by_cases hm : n₀ ∈ names
            · rw [if_pos hm, if_pos (List.mem_cons_of_mem _ hm)]
            · rw [if_neg hm, if_neg (by
                rw [List.mem_cons]
                rintro (hh | hh)
                · exact he hh.symm
                · exact hm hh)]

theorem keys_filterMap_lookup {β : Type} (g : String → Option β) (names : List String)
    (hall : ∀ n ∈ names, ∃ v, g n = some v) :
    (names.filterMap (fun n => (g n).map (fun v => (n, v)))).map Prod.fst = names := by
  induction names with
  | nil => rfl
  | cons n names ih =>
      obtain ⟨v, hv⟩ := hall n (List.mem_cons_self _ _)
      rw [List.filterMap_cons]
      simp only [hv, Option.map_some', List.map_cons]
      rw [ih (fun m hm => hall m (List.mem_cons_of_mem _ hm))]

theorem stringLe_trans : ∀ (a b c : String),
    decide (a ≤ b) = true → decide (b ≤ c) = true → decide (a ≤ c) = true := by
  intro a b c hab hbc
  rw [decide_eq_true_eq] at hab hbc ⊢
  exact le_trans hab hbc

theorem stringLe_total : ∀ (a b : String),
    (decide (a ≤ b) || decide (b ≤ a)) = true := by
  intro a b
  rw [Bool.or_eq_true, decide_eq_true_eq, decide_eq_true_eq]
  exact le_total a b

theorem mergeSort_names_sorted (l : List String) :
    (l.mergeSort (fun a b => a ≤ b)).Pairwise (fun a b : String => a ≤ b) :=
  (List.sorted_mergeSort stringLe_trans stringLe_total l).imp
    (fun hab => of_decide_eq_true hab)

theorem mergeSort_eq_of_sorted {l l' : List String} (hp : List.Perm l' l)
    (hs : l'.Pairwise (fun a b : String => a ≤ b)) :
    l.mergeSort (fun a b => a ≤ b) = l' := by
  haveI : IsAntisymm String (fun a b : String => a ≤ b) :=
    ⟨fun a b h1 h2 => le_antisymm h1 h2⟩
  exact List.eq_of_perm_of_sorted ((List.mergeSort_perm l _).trans hp.symm)
    (mergeSort_names_sorted l) hs

theorem firstDecl_cons {β : Type} (d : List (String × β)) (rest : List (List (String × β)))
    (n : String) : firstDecl (d :: rest) n = (dictLookup d n).or (firstDecl rest n) := rfl

/-- C8: record-type composition visits the ancestor chain oldest-first with
later definitions overwriting same-named entries, so the most specific
declaration of each field name wins, and the composed field list is the
lexicographically sorted, duplicate-free union of all declared field names;
in particular with an ancestor declaring x as Integer and a descendant
redeclaring x as Float and adding d, the composed list is [(d, Float),
(x, Float)]. -/
theorem C8_field_merge :
    (∀ (β : Type) (parents : List (List (String × β))) (newFields : List (String × β)),
      (newFields.map Prod.fst).Nodup →
      (∀ p ∈ parents, (p.map Prod.fst).Nodup) →
      ((composeFields parents newFields).map Prod.fst).Pairwise (fun a b => a ≤ b) ∧
      ((composeFields parents newFields).map Prod.fst).Nodup ∧
      (∀ n, n ∈ (composeFields parents newFields).map Prod.fst ↔
        (n ∈ newFields.map Prod.fst ∨ ∃ p ∈ parents, n ∈ p.map Prod.fst)) ∧
      (∀ n, dictLookup (composeFields parents newFields) n =
        firstDecl (newFields :: parents) n)) ∧
    composeFields [[("x", "Integer")]] [("x", "Float"), ("d", "Float")] =
      [("d", "Float"), ("x", "Float")] := by
  constructor
  · intro β parents newFields hndNew hndPar
    have hfnd : ((dictUpdateMany (accumulateParentFields parents) newFields).map
        Prod.fst).Nodup :=
      keys_nodup_dictUpdateMany _ (keys_nodup_accumulateParentFields parents)
    have hcf : composeFields parents newFields =
        (((dictUpdateMany (accumulateParentFields parents) newFields).map
          Prod.fst).mergeSort (fun a b => a ≤ b)).filterMap
          (fun n => (dictLookup (dictUpdateMany (accumulateParentFields parents) newFields)
            n).map (fun v => (n, v))) := rfl
    have hperm : List.Perm
        (((dictUpdateMany (accumulateParentFields parents) newFields).map
          Prod.fst).mergeSort (fun a b => a ≤ b))
        ((dictUpdateMany (accumulateParentFields parents) newFields).map Prod.fst) :=
      List.mergeSort_perm _ _
    have hall : ∀ n ∈ ((dictUpdateMany (accumulateParentFields parents) newFields).map
        Prod.fst).mergeSort (fun a b => a ≤ b),
        ∃ v, dictLookup (dictUpdateMany (accumulateParentFields parents) newFields) n =
          some v :=
      fun n hn => isSome_dictLookup_of_mem_keys (hperm.mem_iff.mp hn)
    have hkeys : (composeFields parents newFields).map Prod.fst =
        ((dictUpdateMany (accumulateParentFields parents) newFields).map
          Prod.fst).mergeSort (fun a b => a ≤ b) := by
      rw [hcf]
      exact keys_filterMap_lookup _ _ hall
    refine ⟨?_, ?_, ?_, ?_⟩
    · rw [hkeys]
      exact mergeSort_names_sorted _
    · rw [hkeys]
      exact hperm.nodup_iff.mpr hfnd
    · intro n
      rw [hkeys, hperm.mem_iff, mem_keys_dictUpdateMany, mem_keys_accumulateParentFields]
      exact Or.comm
    · intro n
      rw [hcf, dictLookup_filterMap_lookup]
      by_cases hm : n ∈ ((dictUpdateMany (accumulateParentFields parents) newFields).map
          Prod.fst).mergeSort (fun a b => a ≤ b)
      · rw [if_pos hm, dictLookup_dictUpdateMany, dictLookup_reverse hndNew,
          dictLookup_accumulateParentFields hndPar, firstDecl_cons]
      · rw [if_neg hm]
        have hnk : n ∉ (dictUpdateMany (accumulateParentFields parents) newFields).map
            Prod.fst := fun hh => hm (hperm.mem_iff.mpr hh)
        rw [mem_keys_dictUpdateMany] at hnk
        push_neg at hnk
        have h1 : dictLookup newFields n = none := dictLookup_eq_none_of_not_mem hnk.2
        have h2 : firstDecl parents n = none := by
          rw [← dictLookup_accumulateParentFields hndPar]
          exact dictLookup_eq_none_of_not_mem hnk.1
        rw [firstDecl_cons, h1, h2]
        rfl
  · have hnames : ((["x", "d"] : List String).mergeSort (fun a b => a ≤ b)) = ["d", "x"] := by
      apply mergeSort_eq_of_sorted
      · exact List.Perm.swap "x" "d" []
      · exact List.pairwise_cons.mpr ⟨by
          intro b hb
          rw [List.mem_singleton] at hb
          rw [hb, String.le_iff_toList_le]
          decide, List.pairwise_singleton _ _⟩
    have h1 : dictUpdateMany (accumulateParentFields [[("x", "Integer")]])
        [("x", "Float"), ("d", "Float")] = [("x", "Float"), ("d", "Float")] := rfl
    have hcf : composeFields [[("x", "Integer")]] [("x", "Float"), ("d", "Float")] =
        ((["x", "d"] : List String).mergeSort (fun a b => a ≤ b)).filterMap
          (fun n => (dictLookup [("x", "Float"), ("d", "Float")] n).map
            (fun v => (n, v))) := rfl
    rw [hcf, hnames]
    rfl

theorem C8_field_merge_witness :
    dictLookup (composeFields [[("x", "Integer")]] [("x", "Float"), ("d", "Float")]) "x" =
      firstDecl [[("x", "Float"), ("d", "Float")], [("x", "Integer")]] "x" :=
  (C8_field_merge.1 String [[("x", "Integer")]] [("x", "Float"), ("d", "Float")]
    (by decide) (by decide)).2.2.2 "x"

theorem obsInit_ignore_unknown {β : Type} (fields : List (ObsField β))
    (kwds : List (String × Option β)) (k : String) (v : Option β)
    (h : ∀ f ∈ fields, f.name ≠ k) :
    obsInit fields ((k, v) :: kwds) = obsInit fields kwds := by
  induction fields with
  | nil => rfl
  | cons f t ih =>
      have hdl : dictLookup ((k, v) :: kwds) f.name = dictLookup kwds f.name := by
        rw [dictLookup_cons]
        exact if_neg (fun hh => h f (List.mem_cons_self _ _) hh.symm)
      have ih2 := ih (fun g hg => h g (List.mem_cons_of_mem _ hg))
      simp only [obsInit, List.mapM_cons] at ih2 ⊢
      rw [hdl, ih2]

theorem obsInit_defaults {β : Type} (fields : List (ObsField β))
    (kwds : List (String × Option β))
    (h : ∀ f ∈ fields, ∀ x, (dictLookup kwds f.name).getD f.default = some x →
      f.check x = true) :
    obsInit fields kwds =
      .ok (fields.map (fun f => (f.name, (dictLookup kwds f.name).getD f.default))) := by
  induction fields with
  | nil => rfl
  | cons f t ih =>
      have ih2 := ih (fun g hg => h g (List.mem_cons_of_mem _ hg))
      simp only [obsInit, List.mapM_cons, List.map_cons] at ih2 ⊢
      rw [ih2]
      cases hv : (dictLookup kwds f.name).getD f.default with
      | none => rfl
      | some x =>
          have hc : f.check x = true := h f (List.mem_cons_self _ _) x hv
          simp [hc]
          rfl

/-- C10: constructing a record with a keyword argument whose name matches no
declared field raises no error and the argument is silently ignored, while
every declared field is still initialized from its matching keyword argument
or, when absent, its field default. -/
theorem C10_unknown_kwargs :
    (∀ (β : Type) (fields : List (ObsField β)) (kwds : List (String × Option β))
      (k : String) (v : Option β),
      (∀ f ∈ fields, f.name ≠ k) →
      obsInit fields ((k, v) :: kwds) = obsInit fields kwds) ∧
    (∀ (β : Type) (fields : List (ObsField β)) (kwds : List (String × Option β)),
      (∀ f ∈ fields, ∀ x, (dictLookup kwds f.name).getD f.default = some x →
        f.check x = true) →
      obsInit fields kwds =
        .ok (fields.map (fun f => (f.name, (dictLookup kwds f.name).getD f.default)))) :=
  ⟨fun _ fields kwds k v h => obsInit_ignore_unknown fields kwds k v h,
   fun _ fields kwds h => obsInit_defaults fields kwds h⟩

theorem C10_unknown_kwargs_witness :
    obsInit [ObsField.mk "a" none (fun n : ℕ => n < 10), ObsField.mk "b" (some 3) (fun n => n < 10)]
        [("zzz", some 5), ("a", some 7)] =
      .ok [("a", some 7), ("b", some 3)] := by
  have h1 := C10_unknown_kwargs.1 ℕ
    [ObsField.mk "a" none (fun n : ℕ => n < 10), ObsField.mk "b" (some 3) (fun n => n < 10)]
    [("a", some 7)] "zzz" (some 5)
    (by
      intro f hf
      rcases List.mem_cons.mp hf with hh | hh
      · rw [hh]
        decide
      · rw [List.mem_singleton.mp hh]
        decide)
  have h2 := C10_unknown_kwargs.2 ℕ
    [ObsField.mk "a" none (fun n : ℕ => n < 10), ObsField.mk "b" (some 3) (fun n => n < 10)]
    [("a", some 7)]
    (by
      intro f hf x hx
      rcases List.mem_cons.mp hf with hh | hh
      · rw [hh] at hx ⊢
        have hx2 : some 7 = some x := hx
        rw [← Option.some.inj hx2]
        decide
      · rw [List.mem_singleton.mp hh] at hx ⊢
        have hx2 : some 3 = some x := hx
        rw [← Option.some.inj hx2]
        decide)
  rw [h1, h2]
  rfl
end Maka
